import Mathlib

/-!
Verification of the hdrpy HDR image library against its specification.

The development shallowly embeds the Python sources:
* `src/hdrpy/format/pfm.py` (PFM codec),
* `src/hdrpy/io/radiance_hdr_format.py` (Radiance header/body decoding),
* `src/hdrpy/math.py` (`gmean`),
* `src/hdrpy/tmo/linear.py`, `src/hdrpy/tmo/preprocessing.py`,
  `src/src/tmo/operator.py` (tone-mapping operators).

Modelling conventions:
* bytes are `ℕ` (values `< 256` where produced by the code);
* a 32-bit float is represented by its bit pattern, a natural number below
  `2 ^ 32`, since the PFM body is only ever moved between memory and bytes
  without arithmetic;
* float arithmetic in the tone-mapping layer is modelled by `FVal`:
  exact rationals plus the IEEE special values `+Inf`, `-Inf`, `NaN`
  (finite arithmetic is exact, i.e. rounding and overflow are not modelled);
* Python exceptions are modelled by `Except`;
* numpy arrays are lists (nested by axis); elementwise in-place updates are
  modelled by returning the updated list.
-/

namespace Hdrpy

/-! ### Byte-level helpers shared by the codecs -/

/-- The four little-endian bytes of a 32-bit word (`struct.pack('f', ·)`). -/
def word32ToBytes (x : ℕ) : List ℕ :=
  [x % 256, x / 256 % 256, x / 65536 % 256, x / 16777216 % 256]

/-- Reassemble a 32-bit word from four little-endian bytes
(`struct.unpack('f', ·)`). -/
def bytesToWord32 (b0 b1 b2 b3 : ℕ) : ℕ :=
  b0 + 256 * b1 + 65536 * b2 + 16777216 * b3

/-- A bit pattern denotes a finite float iff its exponent bits are not all
ones. -/
def word32IsFinite (x : ℕ) : Bool := decide (x / 8388608 % 256 ≠ 255)

/-- Decimal rendering of a natural number as ASCII bytes
(Python `'{0:d}'.format(n)` for `n ≥ 0`). -/
def natToDecBytes (n : ℕ) : List ℕ :=
  if n = 0 then [48] else (Nat.digits 10 n).reverse.map (fun d => d + 48)

/-- Value of a list of ASCII decimal digits, most significant first. -/
def decBytesToNat (l : List ℕ) : ℕ :=
  l.foldl (fun a c => 10 * a + (c - 48)) 0

/-- ASCII decimal digit test. -/
def isDigitByte (c : ℕ) : Bool := decide (48 ≤ c ∧ c ≤ 57)

/-- Python `int(s)`, modelled for tokens of plain decimal digits (the only
shape these codecs produce); any other token raises `ValueError`. -/
def parseNat (l : List ℕ) : Except Unit ℕ :=
  if l ≠ [] ∧ l.all isDigitByte then .ok (decBytesToNat l) else .error ()

/-- Python `f.readline()`: the bytes up to and including the first newline
(or up to EOF), paired with the remaining stream. -/
def readline (s : List ℕ) : List ℕ × List ℕ :=
  let pre := s.takeWhile (· ≠ 10)
  match s.dropWhile (· ≠ 10) with
  | [] => (pre, [])
  | _ :: r => (pre ++ [10], r)

/-- Python whitespace, as stripped by `str.strip()`. -/
def isSpaceByte (c : ℕ) : Bool := c = 32 || c = 9 || c = 10 || c = 13 || c = 11 || c = 12

/-- Python `str.strip()`. -/
def pyStrip (s : List ℕ) : List ℕ :=
  ((s.dropWhile isSpaceByte).reverse.dropWhile isSpaceByte).reverse

/-- Python `str.split(sep)` for a one-byte separator: splits at every
occurrence, keeping empty tokens. -/
def splitOnByte (sep : ℕ) : List ℕ → List (List ℕ)
  | [] => [[]]
  | c :: rest =>
    if c = sep then [] :: splitOnByte sep rest
    else
      match splitOnByte sep rest with
      | [] => [[c]]
      | t :: ts => (c :: t) :: ts

/-- Split a list into consecutive chunks of `n` elements (numpy `reshape`
along the last axis); a final short chunk is kept as is. -/
def chunkList (n : ℕ) : List α → List (List α)
  | [] => []
  | x :: xs => (x :: xs.take (n - 1)) :: chunkList n (xs.drop (n - 1))
  termination_by l => l.length
  decreasing_by simp only [List.length_cons, List.length_drop]; omega

/-! ### PFM codec (`src/hdrpy/format/pfm.py`)

`PFMFormat.read` takes the file's byte stream and produces the `(h, w, 3)`
image; `PFMFormat.write` produces the byte stream written to the file.
`struct.unpack('f' * siz, ...)` yields float values that are converted to a
float64 `np.ndarray`; as float32 embeds exactly into float64, pixel values
are tracked as their 32-bit patterns throughout. -/

/-- Group a byte list into 32-bit words, four little-endian bytes each
(`struct.unpack('f' * siz, body)`).  The caller checks that the byte count
is exactly `4 * siz`, so the catch-all branch is never reached. -/
def bytesToWords (body : List ℕ) : List ℕ :=
  (chunkList 4 body).map fun ch =>
    bytesToWord32 (ch.getD 0 0) (ch.getD 1 0) (ch.getD 2 0) (ch.getD 3 0)

/-- `PFMFormat.read` from `src/hdrpy/format/pfm.py`:
line 1 is read and discarded (never inspected), line 2 is split into
`w h`, line 3 (the scale) is read and discarded, and the body is
`h * w * 3` floats reshaped to `(h, w, 3)`.  Failures (non-ASCII size
line, token count ≠ 2, non-numeric tokens, short body) raise. -/
def PFMFormat_read (s : List ℕ) : Except Unit (List (List (List ℕ))) :=
  let p1 := readline s
  let p2 := readline p1.2
  if p2.1.all (· < 128) then
    match splitOnByte 32 (pyStrip p2.1) with
    | [ws, hs] =>
      match parseNat ws, parseNat hs with
      | .ok w, .ok h =>
        let p3 := readline p2.2
        let siz := h * w * 3
        let body := p3.2.take (4 * siz)
        if body.length = 4 * siz then
          .ok (chunkList w (chunkList 3 (bytesToWords body)))
        else .error ()
      | _, _ => .error ()
    | _ => .error ()
  else .error ()

/-- `PFMFormat.write` from `src/hdrpy/format/pfm.py`: emits `PF\n`,
`{w} {h}\n`, `-1.0\n`, then the `h * w * 3` floats of the row-major,
channel-minor flattening of the image. -/
def PFMFormat_write (image : List (List (List ℕ))) : List ℕ :=
  let h := image.length
  let w := (image.headD []).length
  [80, 70, 10]
    ++ (natToDecBytes w ++ [32] ++ natToDecBytes h ++ [10])
    ++ [45, 49, 46, 48, 10]
    ++ (image.flatten.flatten).flatMap word32ToBytes

/-! ### Lemmas for the PFM round trip -/

theorem natToDecBytes_mem (n : ℕ) : ∀ c ∈ natToDecBytes n, 48 ≤ c ∧ c ≤ 57 := by
  intro c hc
  unfold natToDecBytes at hc
  by_cases h0 : n = 0
  · simp [h0] at hc
    omega
  · simp [h0, List.mem_map, List.mem_reverse] at hc
    obtain ⟨d, hd, rfl⟩ := hc
    have := Nat.digits_lt_base (by norm_num) hd
    omega

theorem natToDecBytes_ne_nil (n : ℕ) : natToDecBytes n ≠ [] := by
  unfold natToDecBytes
  by_cases h0 : n = 0
  · simp [h0]
  · simp [h0, Nat.digits_ne_nil_iff_ne_zero]

theorem foldl_decBytes (ds : List ℕ) (hd : ∀ d ∈ ds, d < 10) :
    ((ds.reverse.map (fun d => d + 48)).foldl (fun a c => 10 * a + (c - 48)) 0)
      = Nat.ofDigits 10 ds := by
  induction ds with
  | nil => simp [Nat.ofDigits]
  | cons d tl ih =>
      simp only [List.reverse_cons, List.map_append, List.foldl_append, List.map_cons,
        List.map_nil, List.foldl_cons, List.foldl_nil, Nat.ofDigits_cons]
      rw [ih (fun x hx => hd x (List.mem_cons_of_mem _ hx))]
      have : d + 48 - 48 = d := by omega
      rw [this]; ring

theorem parseNat_natToDecBytes (n : ℕ) : parseNat (natToDecBytes n) = .ok n := by
  unfold parseNat
  rw [if_pos]
  · congr 1
    unfold decBytesToNat natToDecBytes
    by_cases h0 : n = 0
    · simp [h0]
    · rw [if_neg h0, foldl_decBytes _ (fun d hd => Nat.digits_lt_base (by norm_num) hd),
        Nat.ofDigits_digits]
  · refine ⟨natToDecBytes_ne_nil n, ?_⟩
    rw [List.all_eq_true]
    intro c hc
    have := natToDecBytes_mem n c hc
    simp [isDigitByte]
    omega

theorem takeWhile_ne10_append (r : List ℕ) :
    ∀ (l : List ℕ), (∀ c ∈ l, c ≠ 10) → (l ++ 10 :: r).takeWhile (· ≠ 10) = l
  | [], _ => by
      rw [List.nil_append, List.takeWhile_cons_of_neg (by simp)]
  | a :: tl, hl => by
      have ha : a ≠ 10 := hl a (List.mem_cons_self a tl)
      rw [List.cons_append,
        @List.takeWhile_cons_of_pos ℕ (fun x => decide (x ≠ 10)) a (tl ++ 10 :: r)
          (by simp [ha]),
        takeWhile_ne10_append r tl (fun c hc => hl c (List.mem_cons_of_mem _ hc))]

theorem dropWhile_ne10_append (r : List ℕ) :
    ∀ (l : List ℕ), (∀ c ∈ l, c ≠ 10) → (l ++ 10 :: r).dropWhile (· ≠ 10) = 10 :: r
  | [], _ => by
      rw [List.nil_append, List.dropWhile_cons_of_neg (by simp)]
  | a :: tl, hl => by
      have ha : a ≠ 10 := hl a (List.mem_cons_self a tl)
      rw [List.cons_append,
        @List.dropWhile_cons_of_pos ℕ (fun x => decide (x ≠ 10)) a (tl ++ 10 :: r)
          (by simp [ha]),
        dropWhile_ne10_append r tl (fun c hc => hl c (List.mem_cons_of_mem _ hc))]

theorem readline_append (l r : List ℕ) (hl : ∀ c ∈ l, c ≠ 10) :
    readline (l ++ 10 :: r) = (l ++ [10], r) := by
  unfold readline
  rw [takeWhile_ne10_append r l hl, dropWhile_ne10_append r l hl]

theorem dropWhile_eq_self_of_head (p : ℕ → Bool) (a : ℕ) (l : List ℕ)
    (hh : p a = false) : (a :: l).dropWhile p = a :: l := by
  simp [List.dropWhile_cons, hh]

theorem isSpaceByte_of_digit (c : ℕ) (h : 48 ≤ c ∧ c ≤ 57) : isSpaceByte c = false := by
  simp only [isSpaceByte, Bool.or_eq_false_iff, decide_eq_false_iff_not]
  omega

/-- Stripping a line whose first and last bytes are not whitespace removes
exactly the trailing newline. -/
theorem pyStrip_append_ten (c d : ℕ) (m : List ℕ)
    (hc : isSpaceByte c = false) (hd : isSpaceByte d = false) :
    pyStrip ((c :: (m ++ [d])) ++ [10]) = c :: (m ++ [d]) := by
  unfold pyStrip
  rw [List.cons_append, dropWhile_eq_self_of_head _ _ _ hc]
  have e2 : ((c :: ((m ++ [d]) ++ [10])) : List ℕ).reverse
      = 10 :: d :: (m.reverse ++ [c]) := by simp
  rw [e2, List.dropWhile_cons_of_pos (by simp [isSpaceByte]),
    dropWhile_eq_self_of_head _ _ _ hd]
  simp

/-- Stripping the `{w} {h}\n` size line removes exactly the trailing
newline. -/
theorem pyStrip_mid (a b : List ℕ)
    (ha : ∀ c ∈ a, 48 ≤ c ∧ c ≤ 57) (hb : ∀ c ∈ b, 48 ≤ c ∧ c ≤ 57)
    (hna : a ≠ []) (hnb : b ≠ []) :
    pyStrip ((a ++ 32 :: b) ++ [10]) = a ++ 32 :: b := by
  obtain ⟨a0, atl, rfl⟩ := List.exists_cons_of_ne_nil hna
  obtain ⟨binit, bl, hbeq⟩ := (List.eq_nil_or_concat b).resolve_left hnb
  rw [List.concat_eq_append] at hbeq
  subst hbeq
  have e : ((a0 :: atl) ++ 32 :: (binit ++ [bl]) : List ℕ)
      = a0 :: ((atl ++ 32 :: binit) ++ [bl]) := by simp
  rw [e, pyStrip_append_ten a0 bl (atl ++ 32 :: binit)
    (isSpaceByte_of_digit a0 (ha a0 (List.mem_cons_self _ _)))
    (isSpaceByte_of_digit bl (hb bl (by simp)))]

theorem splitOnByte_ne_nil (sep : ℕ) (l : List ℕ) : splitOnByte sep l ≠ [] := by
  cases l with
  | nil => simp [splitOnByte]
  | cons c rest =>
      unfold splitOnByte
      by_cases h : c = sep
      · simp [h]
      · simp only [h, if_false]
        cases splitOnByte sep rest <;> simp

theorem splitOnByte_not_mem (sep : ℕ) (l : List ℕ) (h : sep ∉ l) :
    splitOnByte sep l = [l] := by
  induction l with
  | nil => simp [splitOnByte]
  | cons c rest ih =>
      unfold splitOnByte
      have hc : ¬ c = sep := fun hcc => h (by simp [hcc])
      simp only [hc, if_false]
      rw [ih (fun hm => h (List.mem_cons_of_mem _ hm))]

theorem splitOnByte_append (sep : ℕ) (a b : List ℕ) (ha : sep ∉ a) :
    splitOnByte sep (a ++ sep :: b) = a :: splitOnByte sep b := by
  induction a with
  | nil => simp [splitOnByte]
  | cons c tl ih =>
      have hc : ¬ c = sep := fun hcc => ha (by simp [hcc])
      rw [List.cons_append]
      show splitOnByte sep (c :: (tl ++ sep :: b)) = _
      rw [splitOnByte, if_neg hc, ih (fun hm => ha (List.mem_cons_of_mem _ hm))]

theorem length_flatMap_word32 (l : List ℕ) :
    (l.flatMap word32ToBytes).length = 4 * l.length := by
  induction l with
  | nil => simp
  | cons x tl ih =>
      simp only [List.flatMap_cons, List.length_append, ih, List.length_cons]
      simp [word32ToBytes]
      ring

theorem chunkList_four (b0 b1 b2 b3 : ℕ) (rest : List ℕ) :
    chunkList 4 (b0 :: b1 :: b2 :: b3 :: rest)
      = [b0, b1, b2, b3] :: chunkList 4 rest := by
  rw [chunkList]
  norm_num [List.take, List.drop]

theorem bytesToWords_flatMap (l : List ℕ) (hlt : ∀ x ∈ l, x < 2 ^ 32) :
    bytesToWords (l.flatMap word32ToBytes) = l := by
  induction l with
  | nil => simp [bytesToWords, chunkList]
  | cons x tl ih =>
      have hx : x < 2 ^ 32 := hlt x (List.mem_cons_self x tl)
      have hflat : (x :: tl).flatMap word32ToBytes
          = x % 256 :: x / 256 % 256 :: x / 65536 % 256 :: x / 16777216 % 256 ::
              tl.flatMap word32ToBytes := by
        simp [word32ToBytes]
      rw [hflat]
      unfold bytesToWords
      rw [chunkList_four, List.map_cons]
      have htl := ih (fun y hy => hlt y (List.mem_cons_of_mem _ hy))
      unfold bytesToWords at htl
      rw [htl]
      show bytesToWord32 (x % 256) (x / 256 % 256) (x / 65536 % 256)
          (x / 16777216 % 256) :: tl = x :: tl
      have hw : bytesToWord32 (x % 256) (x / 256 % 256) (x / 65536 % 256)
          (x / 16777216 % 256) = x := by
        show x % 256 + 256 * (x / 256 % 256) + 65536 * (x / 65536 % 256)
          + 16777216 * (x / 16777216 % 256) = x
        omega
      rw [hw]

theorem chunkList_flatten {α : Type} (n : ℕ) (hn : 0 < n) (ls : List (List α))
    (hlen : ∀ l ∈ ls, l.length = n) : chunkList n ls.flatten = ls := by
  induction ls with
  | nil => simp [chunkList]
  | cons l tl ih =>
      have hl : l.length = n := hlen l (List.mem_cons_self l tl)
      obtain ⟨x, xs, rfl⟩ : ∃ x xs, l = x :: xs := by
        cases l with
        | nil => simp at hl; omega
        | cons x xs => exact ⟨x, xs, rfl⟩
      have hxs : xs.length = n - 1 := by simp at hl; omega
      simp only [List.flatten_cons, List.cons_append]
      unfold chunkList
      rw [show (xs ++ tl.flatten).take (n - 1) = xs from by
            rw [List.take_left' hxs],
          show (xs ++ tl.flatten).drop (n - 1) = tl.flatten from by
            rw [List.drop_left' hxs]]
      rw [ih (fun m hm => hlen m (List.mem_cons_of_mem _ hm))]

theorem flatten_length_const {α : Type} (ls : List (List α)) (k : ℕ)
    (h : ∀ l ∈ ls, l.length = k) : ls.flatten.length = ls.length * k := by
  induction ls with
  | nil => simp
  | cons l tl ih =>
      simp only [List.flatten_cons, List.length_append, List.length_cons,
        h l (List.mem_cons_self l tl), ih (fun m hm => h m (List.mem_cons_of_mem _ hm))]
      ring

/-- C1.  PFM round trip: for every `(H, W, 3)` array of finite 32-bit floats,
reading back the bytes produced by `PFMFormat.write` yields the original
array bit-for-bit; the writer emits the header `PF`, `{width} {height}`,
`-1.0`, and `height * width * 3` floats in row-major, channel-minor order
(visible in the definition of `PFMFormat_write`). -/
theorem pfm_read_write_roundtrip (image : List (List (List ℕ))) (h w : ℕ)
    (hh : image.length = h) (hpos : 0 < h) (wpos : 0 < w)
    (hrow : ∀ row ∈ image, row.length = w)
    (hpix : ∀ row ∈ image, ∀ px ∈ row, px.length = 3)
    (hword : ∀ row ∈ image, ∀ px ∈ row, ∀ x ∈ px, x < 2 ^ 32)
    (hfin : ∀ row ∈ image, ∀ px ∈ row, ∀ x ∈ px, word32IsFinite x = true) :
    PFMFormat_read (PFMFormat_write image) = .ok image := by
  obtain ⟨r0, rest0, rfl⟩ : ∃ r0 rest0, image = r0 :: rest0 := by
    cases image with
    | nil => simp at hh; omega
    | cons r0 rest0 => exact ⟨r0, rest0, rfl⟩
  set image := r0 :: rest0 with himage
  have hwidth : (image.headD []).length = w := by
    simp [himage, hrow r0 (List.mem_cons_self r0 rest0)]
  -- lengths of the flattened image
  have hpxlen : ∀ px ∈ image.flatten, px.length = 3 := by
    intro px hpx
    obtain ⟨row, hrowm, hpxm⟩ := List.mem_flatten.1 hpx
    exact hpix row hrowm px hpxm
  have hwlt : ∀ x ∈ image.flatten.flatten, x < 2 ^ 32 := by
    intro x hx
    obtain ⟨px, hpxm, hxm⟩ := List.mem_flatten.1 hx
    obtain ⟨row, hrowm, hpxm2⟩ := List.mem_flatten.1 hpxm
    exact hword row hrowm px hpxm2 x hxm
  have hlen1 : image.flatten.length = h * w := by
    rw [flatten_length_const image w hrow, hh]
  have hlen2 : image.flatten.flatten.length = h * w * 3 := by
    rw [flatten_length_const image.flatten 3 hpxlen, hlen1]
  -- the byte stream produced by write
  have hdig10 : ∀ c ∈ natToDecBytes w ++ 32 :: natToDecBytes h, c ≠ 10 := by
    intro c hc
    rcases List.mem_append.1 hc with hcw | hcc
    · have := natToDecBytes_mem w c hcw; omega
    · rcases List.mem_cons.1 hcc with rfl | hch
      · omega
      · have := natToDecBytes_mem h c hch; omega
  simp only [PFMFormat_write, PFMFormat_read]
  rw [hwidth, hh]
  have hstream : ([80, 70, 10]
      ++ (natToDecBytes w ++ [32] ++ natToDecBytes h ++ [10])
      ++ [45, 49, 46, 48, 10]
      ++ image.flatten.flatten.flatMap word32ToBytes)
      = [80, 70] ++ 10 :: ((natToDecBytes w ++ 32 :: natToDecBytes h)
          ++ 10 :: ([45, 49, 46, 48] ++ 10 ::
            image.flatten.flatten.flatMap word32ToBytes)) := by
    simp
  rw [hstream,
    readline_append [80, 70] _ (by intro c hc; fin_cases hc <;> omega)]
  simp only
  rw [readline_append _ _ hdig10]
  simp only
  have hall : ((natToDecBytes w ++ 32 :: natToDecBytes h) ++ [10]).all (· < 128) := by
    rw [List.all_eq_true]
    intro c hc
    simp only [List.mem_append, List.mem_cons, List.mem_singleton,
      List.not_mem_nil, or_false] at hc
    rcases hc with (hcw | rfl | hch) | rfl
    · have := natToDecBytes_mem w c hcw; simp; omega
    · simp
    · have := natToDecBytes_mem h c hch; simp; omega
    · simp
  rw [if_pos hall]
  rw [pyStrip_mid (natToDecBytes w) (natToDecBytes h)
      (natToDecBytes_mem w) (natToDecBytes_mem h)
      (natToDecBytes_ne_nil w) (natToDecBytes_ne_nil h),
    splitOnByte_append 32 _ _
      (by intro hm; have := natToDecBytes_mem w 32 hm; omega),
    splitOnByte_not_mem 32 _
      (by intro hm; have := natToDecBytes_mem h 32 hm; omega)]
  simp only [parseNat_natToDecBytes]
  rw [readline_append [45, 49, 46, 48] _ (by intro c hc; fin_cases hc <;> omega)]
  have hblen : (image.flatten.flatten.flatMap word32ToBytes).length
      = 4 * (h * w * 3) := by
    rw [length_flatMap_word32, hlen2]
  have htake : (image.flatten.flatten.flatMap word32ToBytes).take (4 * (h * w * 3))
      = image.flatten.flatten.flatMap word32ToBytes := by
    rw [← hblen, List.take_length]
  simp only [htake, hblen, if_true, eq_self_iff_true]
  rw [bytesToWords_flatMap _ hwlt,
    chunkList_flatten 3 (by omega) image.flatten hpxlen,
    chunkList_flatten w wpos image hrow]

/-- Witness for C1 at a concrete `1 × 1 × 3` image of finite float patterns
(`1.0f`, `0.0f`, `-2.0f`). -/
theorem pfm_read_write_roundtrip_witness :
    PFMFormat_read (PFMFormat_write [[[1065353216, 0, 3221225472]]])
      = .ok [[[1065353216, 0, 3221225472]]] :=
  pfm_read_write_roundtrip [[[1065353216, 0, 3221225472]]] 1 1 rfl
    (by decide) (by decide) (by decide) (by decide) (by decide) (by decide)

/-- C6 (counterexample).  A PFM stream whose first line is the greyscale
magic `Pf` (bytes `80, 102`) is decoded successfully by `PFMFormat.read`:
the body is decoded and no `UnsupportedVariant` (or any) error is raised,
contradicting the claim that a non-`PF` magic fails. -/
theorem pfm_read_accepts_Pf_magic :
    PFMFormat_read
        [80, 102, 10, 49, 32, 49, 10, 45, 49, 46, 48, 10,
          0, 0, 0, 0, 0, 0, 0, 0, 0, 0, 0, 0]
      = .ok [[[0, 0, 0]]] := by
  simp [PFMFormat_read, readline, pyStrip, splitOnByte, parseNat, isDigitByte,
    decBytesToNat, bytesToWords, chunkList, isSpaceByte, bytesToWord32,
    List.takeWhile, List.dropWhile]

/-- C6 (amended).  `PFMFormat.read` never inspects the first header line:
the result of reading is identical for any two first lines, in particular
for `Pf` instead of `PF`; no magic check exists and no `UnsupportedVariant`
error is ever produced for a wrong magic. -/
theorem pfm_read_ignores_magic (l1 l2 rest : List ℕ)
    (h1 : ∀ c ∈ l1, c ≠ 10) (h2 : ∀ c ∈ l2, c ≠ 10) :
    PFMFormat_read (l1 ++ 10 :: rest) = PFMFormat_read (l2 ++ 10 :: rest) := by
  simp only [PFMFormat_read, readline_append l1 rest h1, readline_append l2 rest h2]

/-- Witness for C6 (amended): the `Pf` stream of the counterexample reads
to the same result as the corresponding `PF` stream. -/
theorem pfm_read_ignores_magic_witness :
    PFMFormat_read
        [80, 102, 10, 49, 32, 49, 10, 45, 49, 46, 48, 10,
          7, 0, 0, 0, 0, 0, 0, 0, 0, 0, 0, 0]
      = PFMFormat_read
        [80, 70, 10, 49, 32, 49, 10, 45, 49, 46, 48, 10,
          7, 0, 0, 0, 0, 0, 0, 0, 0, 0, 0, 0] :=
  pfm_read_ignores_magic [80, 102] [80, 70]
    [49, 32, 49, 10, 45, 49, 46, 48, 10, 7, 0, 0, 0, 0, 0, 0, 0, 0, 0, 0, 0]
    (by decide) (by decide)

/-! ### Radiance resolution line
(`RadianceHDRBody.read_resolution_string`, `src/hdrpy/io/radiance_hdr_format.py`)

The line is matched against the regexes `([-+]Y) ([0-9]+)` and
`([-+]X) ([0-9]+)` with `re.search` (leftmost match, greedy digit run). -/

/-- The data of a successful `re.search` for `([-+]A) ([0-9]+)`:
start position, the sign character, and the digit run of group 2. -/
structure ReMatch where
  start : ℕ
  sign : Char
  num : List Char
deriving DecidableEq

/-- `[-+]`. -/
def isSignChar (c : Char) : Bool := decide (c = '-') || decide (c = '+')

/-- Match `([-+]A) ([0-9]+)` at the current position (`A` = axis letter). -/
def matchAxisAt (axis : Char) (l : List Char) : Option (Char × List Char) :=
  match l with
  | c :: a :: sp :: rest =>
      if isSignChar c && decide (a = axis) && decide (sp = ' ') then
        let ds := rest.takeWhile Char.isDigit
        if ds = [] then none else some (c, ds)
      else none
  | _ => none

/-- `re.search`: leftmost match of `([-+]A) ([0-9]+)` in the line, with its
start position. -/
def searchAxis (axis : Char) : List Char → ℕ → Option ReMatch
  | [], _ => none
  | c :: rest, pos =>
      match matchAxisAt axis (c :: rest) with
      | some (sign, ds) => some ⟨pos, sign, ds⟩
      | none => searchAxis axis rest (pos + 1)

/-- Python `int` of a run of ASCII digits. -/
def pyIntOfDigits (ds : List Char) : ℕ :=
  ds.foldl (fun a c => 10 * a + (c.toNat - 48)) 0

/-- The fields set by `read_resolution_string` on the body object. -/
structure Resolution where
  width : ℕ
  height : ℕ
  is_fliplr : Bool
  is_flipud : Bool
  is_rotated : Bool
deriving DecidableEq

/-- Python `match_object == "string"`: an `re.Match` object defines no
equality with `str`, so the comparison falls back to identity and is always
`False`.  This is what the source's `if height_match == "+Y"` and
`if width_match == "-X"` evaluate. -/
def pyMatchEqStr (_ : ReMatch) (_ : List Char) : Bool := false

/-- `RadianceHDRBody.read_resolution_string` from
`src/hdrpy/io/radiance_hdr_format.py` (lines 163-182): searches both axis
patterns; on success sets `height`/`width` from group 2 and the three
orientation flags, where the two flip tests compare the match object itself
(not `group(1)`) with a string; raises when either pattern is absent. -/
def read_resolution_string (line : List Char) : Except Unit Resolution :=
  match searchAxis 'Y' line 0, searchAxis 'X' line 0 with
  | some height_match, some width_match =>
      .ok { height := pyIntOfDigits height_match.num
            is_flipud := pyMatchEqStr height_match ['+', 'Y']
            width := pyIntOfDigits width_match.num
            is_fliplr := pyMatchEqStr width_match ['-', 'X']
            is_rotated := decide (height_match.start > width_match.start) }
  | _, _ => .error ()

/-- C3.  The canonical line `-Y 4 +X 8` parses to width 8, height 4 and all
three flags false, as the claim states; but on `+Y 4 +X 8` the parser still
returns `flip_ud = false` (the claim requires `true` for a `+` Y sign), and
on `-Y 4 -X 8` it still returns `flip_lr = false` (the claim requires `true`
for a `-` X sign): the source compares the `re.Match` object itself with a
string, a test that is always false, so the flip flags can never be set.
Only `rotated` behaves as claimed (`+X 8 -Y 4` sets it).  This contradicts
the claimed iff characterisation of `flip_ud`/`flip_lr`. -/
theorem read_resolution_string_flip_flags_dead :
    read_resolution_string ("-Y 4 +X 8".toList)
        = .ok ⟨8, 4, false, false, false⟩
      ∧ read_resolution_string ("+Y 4 +X 8".toList)
        = .ok ⟨8, 4, false, false, false⟩
      ∧ read_resolution_string ("-Y 4 -X 8".toList)
        = .ok ⟨8, 4, false, false, false⟩
      ∧ read_resolution_string ("+X 8 -Y 4".toList)
        = .ok ⟨8, 4, false, false, true⟩ :=
  ⟨rfl, rfl, rfl, rfl⟩

/-! ### Exact float model for the tone-mapping layer

`FVal` is an exact model of IEEE-754 double values as used by numpy:
rationals for finite values plus `+Inf`, `-Inf` and `NaN`.  Finite
arithmetic is exact (rounding and overflow-to-infinity are not modelled);
special values follow IEEE semantics.  A single zero stands for `±0.0`,
which numpy's `==`, `<=` and arithmetic do not distinguish in the
operations used here. -/

inductive FVal where
  | fin (q : ℚ)
  | pinf
  | ninf
  | nan
deriving DecidableEq

namespace FVal

def isnan : FVal → Bool
  | nan => true
  | _ => false

def isinf : FVal → Bool
  | pinf => true
  | ninf => true
  | _ => false

/-- IEEE multiplication (`x * y`), exact on finite values. -/
def mul : FVal → FVal → FVal
  | nan, _ => nan
  | _, nan => nan
  | fin a, fin b => fin (a * b)
  | pinf, fin b => if 0 < b then pinf else if b < 0 then ninf else nan
  | fin a, pinf => if 0 < a then pinf else if a < 0 then ninf else nan
  | ninf, fin b => if 0 < b then ninf else if b < 0 then pinf else nan
  | fin a, ninf => if 0 < a then ninf else if a < 0 then pinf else nan
  | pinf, pinf => pinf
  | pinf, ninf => ninf
  | ninf, pinf => ninf
  | ninf, ninf => pinf

/-- IEEE addition (`x + y`), exact on finite values. -/
def add : FVal → FVal → FVal
  | nan, _ => nan
  | _, nan => nan
  | fin a, fin b => fin (a + b)
  | pinf, ninf => nan
  | ninf, pinf => nan
  | pinf, _ => pinf
  | _, pinf => pinf
  | ninf, _ => ninf
  | _, ninf => ninf

/-- IEEE division (`x / y`), exact on finite values; numpy emits a warning
but returns `±Inf` (or `NaN` for `0/0`) on division by zero. -/
def div : FVal → FVal → FVal
  | nan, _ => nan
  | _, nan => nan
  | fin a, fin b =>
      if b = 0 then (if a = 0 then nan else if 0 < a then pinf else ninf)
      else fin (a / b)
  | pinf, fin b => if b < 0 then ninf else pinf
  | ninf, fin b => if b < 0 then pinf else ninf
  | fin _, pinf => fin 0
  | fin _, ninf => fin 0
  | pinf, pinf => nan
  | pinf, ninf => nan
  | ninf, pinf => nan
  | ninf, ninf => nan

/-- numpy elementwise `x <= y`: any comparison with `NaN` is false. -/
def leB : FVal → FVal → Bool
  | nan, _ => false
  | _, nan => false
  | fin a, fin b => decide (a ≤ b)
  | ninf, _ => true
  | _, pinf => true
  | pinf, _ => false
  | fin _, ninf => false

end FVal

/-- `np.finfo(np.float32).max` = `(2 - 2 ^ (-23)) * 2 ^ 127` exactly. -/
def F32MAX : ℚ := 340282346638528859811704183484516925440

/-- `sys.float_info.epsilon` = `2 ^ (-52)` exactly. -/
def EPS64 : ℚ := 1 / 4503599627370496

/-- numpy in-place masked assignment `a[mask(a)] = v`: the new contents of
the array object. -/
def maskedSet (mask : FVal → Bool) (v : FVal) (a : List FVal) : List FVal :=
  a.map (fun y => if mask y then v else y)

/-- `np.clip(x, 0, np.finfo(np.float32).max)` elementwise
(`NaN` propagates). -/
def clip0max (x : FVal) : FVal :=
  match x with
  | .nan => .nan
  | .ninf => .fin 0
  | .pinf => .fin F32MAX
  | .fin q => if q < 0 then .fin 0 else if F32MAX < q then .fin F32MAX else .fin q

/-- `np.maximum` of two values (`NaN` propagates). -/
def fmax2 (x y : FVal) : FVal :=
  if x.isnan || y.isnan then .nan else if x.leB y then y else x

/-- `np.amax` of a nonempty array (`maximum.reduce`); callers raise
`ValueError` on empty input before this is reached. -/
def amax : List FVal → FVal
  | [] => .nan
  | x :: xs => xs.foldl fmax2 x

/-! ### `gmean` (`src/hdrpy/math.py`, lines 5-33)

`np.log` / `np.exp` are transcendental, so their action on positive finite
values is taken as parameters `logF` / `expF`; the IEEE special-value
behaviour (`log 0 = -Inf`, `log` of a negative value or `NaN` = `NaN`,
`exp (-Inf) = 0`) is fixed by the model.  Only `axis=None` (the flattened
array) is modelled, which is how the library calls it. -/

/-- `np.log` elementwise. -/
def flog (logF : ℚ → ℚ) : FVal → FVal
  | .fin q => if q = 0 then .ninf else if q < 0 then .nan else .fin (logF q)
  | .pinf => .pinf
  | .ninf => .nan
  | .nan => .nan

/-- `np.exp` elementwise (overflow to `+Inf` not modelled). -/
def fexp (expF : ℚ → ℚ) : FVal → FVal
  | .fin q => .fin (expF q)
  | .pinf => .pinf
  | .ninf => .fin 0
  | .nan => .nan

/-- `np.sum` of an array (`add.reduce`). -/
def fsum : List FVal → FVal
  | [] => .fin 0
  | x :: xs => xs.foldl FVal.add x

/-- `ndarray.mean(axis=None)` = sum divided by the element count. -/
def fmean (l : List FVal) : FVal :=
  FVal.div (fsum l) (.fin l.length)

/-- `gmean` from `src/hdrpy/math.py`: the eps-substituted copy `a_c` is
computed, but `np.log` is then applied to `a` — exactly as in the source,
where `log_a = np.log(a)` ignores `a_c`. -/
def gmean (logF expF : ℚ → ℚ) (a : List FVal) (eps : Option FVal) : FVal :=
  let a_c := match eps with
    | some e => maskedSet (fun y => y.isnan) e
        (maskedSet (fun y => y.leB (.fin 0)) e a)
    | none => a
  let log_a := a.map (flog logF)
  fexp expF (fmean log_a)

/-- The computation the specification describes for `gmean`: the
substitution is applied *before* the logarithm
(`exp(mean(log(a')))` with `a'` the substituted array). -/
def gmean_spec (logF expF : ℚ → ℚ) (a : List FVal) (eps : Option FVal) : FVal :=
  let a_c := match eps with
    | some e => maskedSet (fun y => y.isnan) e
        (maskedSet (fun y => y.leB (.fin 0)) e a)
    | none => a
  fexp expF (fmean (a_c.map (flog logF)))

/-- C2.  The eps-guard of `gmean` is dead code: `np.log` is applied to the
unsubstituted input, so for `a = [-1.0]` and `eps = 1e-6` the code returns
`NaN` (log of a negative number), for every possible behaviour of
`log`/`exp` on positive values, while the claimed result
`exp(mean(log([eps])))` is the finite value `exp(log(1e-6))`.  Hence
`gmean(a, eps)` differs from the claimed substituted computation and is not
finite. -/
theorem gmean_substitution_dead (logF expF : ℚ → ℚ) :
    gmean logF expF [.fin (-1)] (some (.fin (1 / 1000000))) = .nan
      ∧ gmean_spec logF expF [.fin (-1)] (some (.fin (1 / 1000000)))
        = .fin (expF (logF (1 / 1000000)))
      ∧ ∀ q : ℚ, (FVal.nan : FVal) ≠ .fin q := by
  refine ⟨?_, ?_, ?_⟩
  · show fexp expF (fmean ([FVal.fin (-1)].map (flog logF))) = .nan
    norm_num [flog, fmean, fsum, FVal.div, fexp]
  · show fexp expF
        (fmean ((maskedSet (fun y => y.isnan) (.fin (1 / 1000000))
          (maskedSet (fun y => y.leB (.fin 0)) (.fin (1 / 1000000))
            [.fin (-1)])).map (flog logF))) = .fin (expF (logF (1 / 1000000)))
    norm_num [maskedSet, FVal.leB, FVal.isnan, flog, fmean, fsum, FVal.div, fexp]
  · intro q
    simp

/-! ### Tone-mapping operators

Each operator is embedded together with the final contents of its array
argument(s) (the last component of the returned pair), so that in-place
mutation of a caller's array is part of the model.  For all operators except
`preprocessing.multiply_scalar` the source's in-place writes target freshly
allocated arrays (`intensity * factor`, `np.clip(...)`, `copy.deepcopy`,
`np.copy`), so the argument contents are returned unchanged. -/

/-- Python errors raised by the tone-mapping layer. -/
inductive PyError where
  | valueError
  | nameError
deriving DecidableEq

/-- The `inf_sub` parameter of `multiply_scalar`:
`None`, a `str`, or a `float`. -/
inductive InfSub where
  | nullv
  | strv (s : String)
  | valv (v : FVal)

/-- `str.lower()` on one ASCII character. -/
def lowerChar (c : Char) : Char :=
  if 65 ≤ c.toNat ∧ c.toNat ≤ 90 then Char.ofNat (c.toNat + 32) else c

/-- `str.lower()` (ASCII range, which is all these modules compare). -/
def pyLower (s : String) : List Char := s.data.map lowerChar

/-- `multiply_scalar` from `src/hdrpy/tmo/linear.py` (lines 10-63).
`new_intensity = intensity * factor` allocates a fresh array and every
in-place masked assignment targets `new_intensity`; a `str` `inf_sub` other
than (case-insensitive) "inf" and any non-`float` fall through to
`raise ValueError()`.  Returns (result, final contents of the caller's
`intensity`). -/
def multiply_scalar (intensity : List FVal) (factor : FVal)
    (nan_sub : Option FVal) (inf_sub : InfSub) (minus_sub : Option FVal) :
    Except PyError (List FVal) × List FVal :=
  let new1 := intensity.map (fun x => FVal.mul x factor)
  let new2 := match nan_sub with
    | some v => maskedSet FVal.isnan v new1
    | none => new1
  let step3 : Except PyError (List FVal) :=
    match inf_sub with
    | .nullv => .ok new2
    | .strv s =>
        if pyLower s = "inf".data then .ok (maskedSet FVal.isinf (.fin F32MAX) new2)
        else .error .valueError
    | .valv v => .ok (maskedSet FVal.isinf v new2)
  (step3.map (fun new3 =>
      match minus_sub with
      | some v => maskedSet (fun y => y.leB (.fin 0)) v new3
      | none => new3),
   intensity)

/-- `NormalizeRange.__init__` from `src/hdrpy/tmo/linear.py`:
validates the mode string. -/
def NormalizeRange_init (mode : String) : Except PyError String :=
  if pyLower mode = "luminance".data || pyLower mode = "color".data then .ok mode
  else .error .valueError

/-- `NormalizeRange.__call__` from `src/hdrpy/tmo/linear.py`
(lines 173-187).  In `luminance` mode the body evaluates
`hdrpy.get_lumianance(image)`, but the module binds no name `hdrpy`
(its imports are `from hdrpy.* import ...`), so the attribute access raises
`NameError` before anything else runs (the function is also misspelled:
the module imports `get_luminance`).  In `color` mode the factor is
`1. / np.amax(image)` (`np.amax` raises `ValueError` on an empty array) and
the result is `multiply_scalar(image, factor)` with its default
substitutions. -/
def NormalizeRange_call (mode : String) (image : List FVal) :
    Except PyError (List FVal) :=
  if mode = "luminance" then
    .error .nameError
  else if image.isEmpty then .error .valueError
  else
    let factor := FVal.div (.fin 1) (amax image)
    (multiply_scalar image factor (some (.fin 0)) (.strv "Inf")
      (some (.fin 0))).1

/-- `multiply_scalar` from `src/hdrpy/tmo/preprocessing.py` (lines 9-37).
`replaced_intensity = intensity` aliases the caller's array, so
`replaced_intensity[intensity == 0] = eps` writes into it (`eps` is
`sys.float_info.epsilon`).  The `factor is None` branch divides
`0.18 * 2 ** ev` by `scipy.stats.gmean` of the (mutated) input; the
external `scipy` geometric mean is taken as the parameter `gm`.  Returns
(result, final contents of the caller's `intensity`). -/
def preprocessing_multiply_scalar (gm : List FVal → FVal)
    (intensity : List FVal) (factor : Option FVal) (ev : ℤ) :
    List FVal × List FVal :=
  let replaced_intensity :=
    maskedSet (fun y => decide (y = .fin 0)) (.fin EPS64) intensity
  let factorv := match factor with
    | some f => f
    | none => FVal.div (.fin (18 / 100 * 2 ^ ev)) (gm replaced_intensity)
  (replaced_intensity.map (fun x => FVal.mul x factorv), replaced_intensity)

/-- `reinhard_curve` from `src/hdrpy/tmo/reinhard.py` (lines 10-30).
Both `np.clip` calls allocate fresh arrays and rebind the local names; a
shape mismatch of `lum` and `lum_ave` raises.  Returns
(result, final contents of the callers' `lum` and `lum_ave`). -/
def reinhard_curve (lum lum_ave : List FVal) (lum_white : FVal) :
    Except PyError (List FVal) × (List FVal × List FVal) :=
  let lum2 := lum.map clip0max
  let lum_ave2 := lum_ave.map clip0max
  (if lum.length = lum_ave.length then
      .ok (List.zipWith (fun l la =>
        FVal.mul (FVal.div l (FVal.add (.fin 1) la))
          (FVal.add (.fin 1) (FVal.div l (FVal.mul lum_white lum_white))))
        lum2 lum_ave2)
    else .error .valueError,
   (lum, lum_ave))

/-- `x ** e` elementwise for a positive fractional float exponent, on the
clipped nonnegative range; the transcendental finite action is the
parameter `powF`. -/
def fpowP (powF : ℚ → ℚ) : FVal → FVal
  | .fin q => .fin (powF q)
  | .pinf => .pinf
  | .ninf => .nan
  | .nan => .nan

/-- `eilertsen_curve` from `src/hdrpy/tmo/eilertsen.py` (lines 9-29).
`np.clip` allocates and rebinds the local name; `**` and the arithmetic
allocate.  Returns (result, final contents of the caller's
`intensity`). -/
def eilertsen_curve (powF : ℚ → ℚ) (intensity : List FVal) (sigma : FVal) :
    List FVal × List FVal :=
  let clipped := intensity.map clip0max
  let powered := clipped.map (fpowP powF)
  (powered.map (fun p =>
      FVal.mul (FVal.add (.fin 1) sigma) (FVal.div p (FVal.add p sigma))),
   intensity)

/-- `replace_luminance` from `src/src/tmo/operator.py` (lines 76-101),
for an `(H, W, 3)` image (pixels flattened to a list; all operations are
elementwise).  `np.clip` allocates and `ratio` aliases that fresh array, so
`ratio[~is_zero] /= ...` and `ratio[is_zero] = 0` never touch the callers'
arrays; per element the ratio is `0` where `org_luminance == 0` and
`clip(luminance) / org_luminance` elsewhere.  The `org_luminance is None`
default delegates to the external colorspace provider and is outside the
embedded core, so `org_luminance` is taken explicitly.  Returns
(result, final contents of the callers' three arrays). -/
def replace_luminance (image : List (FVal × FVal × FVal))
    (luminance org_luminance : List FVal) :
    Except PyError (List (FVal × FVal × FVal))
      × (List (FVal × FVal × FVal) × List FVal × List FVal) :=
  let lum := luminance.map clip0max
  (if luminance.length = org_luminance.length
      ∧ org_luminance.length = image.length then
      let rmap := List.zipWith
        (fun lv ov => if ov = FVal.fin 0 then FVal.fin 0 else FVal.div lv ov)
        lum org_luminance
      .ok (List.zipWith
        (fun px r => (FVal.mul px.1 r, FVal.mul px.2.1 r, FVal.mul px.2.2 r))
        image rmap)
    else .error .valueError,
   (image, luminance, org_luminance))

/-- `replace_color` from `src/hdrpy/tmo/operator.py` (lines 176-195).
`rgb_new = copy.deepcopy(rgb)` is a fresh array and the in-place `*=`
target it; the ratio is computed by dividing everywhere and then zeroing
the positions where `lum_org == 0`.  Returns
(result, final contents of the callers' three arrays). -/
def replace_color (rgb : List (FVal × FVal × FVal))
    (lum_new lum_org : List FVal) :
    Except PyError (List (FVal × FVal × FVal))
      × (List (FVal × FVal × FVal) × List FVal × List FVal) :=
  let clipped_lum := lum_new.map clip0max
  (if lum_new.length = lum_org.length ∧ lum_org.length = rgb.length then
      let rdiv := List.zipWith FVal.div clipped_lum lum_org
      let rmap := List.zipWith
        (fun rv ov => if ov = FVal.fin 0 then FVal.fin 0 else rv) rdiv lum_org
      .ok (List.zipWith
        (fun px r => (FVal.mul px.1 r, FVal.mul px.2.1 r, FVal.mul px.2.2 r))
        rgb rmap)
    else .error .valueError,
   (rgb, lum_new, lum_org))

/-- The loop of `Compose.__call__`: each member processing is
`array ↦ (return value, final contents of its argument)`, and the loop
rebinds `x` to the member's return value. -/
def Compose_run : List (List FVal → List FVal × List FVal) → List FVal → List FVal
  | [], x => x
  | f :: fs, x => Compose_run fs (f x).1

/-- `Compose.__call__` from `src/src/tmo/operator.py` (lines 104-122).
`x = np.copy(image)` hands the members a fresh array with the caller's
contents; whatever a member does in place affects only that copy (or its
successors), never the caller's `image`.  Returns
(result, final contents of the caller's `image`). -/
def Compose_call (processings : List (List FVal → List FVal × List FVal))
    (image : List FVal) : List FVal × List FVal :=
  (Compose_run processings image, image)

/-! ### C7, C8, C9: operator behaviour -/

/-- C9.  `NormalizeRange("luminance")` raises `NameError` on every image:
the luminance branch evaluates the unbound (and misspelled) name
`hdrpy.get_lumianance`, so the call never computes a luminance maximum or a
factor, contradicting the claim that it returns normally with the image
scaled by `1 / max(luminance)`. -/
theorem NormalizeRange_luminance_raises (image : List FVal) :
    NormalizeRange_call "luminance" image = .error .nameError := rfl

/-- C7 (counterexample).  `preprocessing.multiply_scalar` mutates its
input: called on the array `[0.0, 2.0]` with `factor = 1.5`, the caller's
array afterwards holds `[2^-52, 2.0]` — the zero entry was overwritten in
place with `sys.float_info.epsilon`, so the input is not unchanged. -/
theorem preprocessing_multiply_scalar_mutates :
    (preprocessing_multiply_scalar (fun _ => FVal.nan) [.fin 0, .fin 2]
        (some (.fin (3 / 2))) 0).2 = [.fin EPS64, .fin 2]
      ∧ ([FVal.fin EPS64, .fin 2] : List FVal) ≠ [.fin 0, .fin 2] := by
  refine ⟨rfl, ?_⟩
  norm_num [EPS64]

/-- C7 (amended).  Every cited operator except
`preprocessing.multiply_scalar` leaves the contents of its array
argument(s) unchanged: `linear.multiply_scalar`, `reinhard_curve`,
`eilertsen_curve`, `replace_luminance`, `replace_color` only write into
freshly allocated arrays, and `Compose` copies its input before applying
the member processings, whatever those members do to their own argument.
(`preprocessing.multiply_scalar` instead replaces zero entries of its input
with machine epsilon in place.) -/
theorem operators_do_not_mutate_arguments :
    (∀ intensity factor nan_sub inf_sub minus_sub,
        (multiply_scalar intensity factor nan_sub inf_sub minus_sub).2
          = intensity)
    ∧ (∀ lum lum_ave lum_white,
        (reinhard_curve lum lum_ave lum_white).2 = (lum, lum_ave))
    ∧ (∀ powF intensity sigma,
        (eilertsen_curve powF intensity sigma).2 = intensity)
    ∧ (∀ image luminance org_luminance,
        (replace_luminance image luminance org_luminance).2
          = (image, luminance, org_luminance))
    ∧ (∀ rgb lum_new lum_org,
        (replace_color rgb lum_new lum_org).2 = (rgb, lum_new, lum_org))
    ∧ (∀ processings image, (Compose_call processings image).2 = image) :=
  ⟨fun _ _ _ _ _ => rfl, fun _ _ _ => rfl, fun _ _ _ => rfl,
   fun _ _ _ => rfl, fun _ _ _ => rfl, fun _ _ => rfl⟩

/-- C8.  On equal-shaped inputs `replace_luminance` (and `replace_color`)
return normally, and wherever the original luminance is exactly `0` the
per-pixel ratio is set to `0` instead of the result of `0/0`, so each
output channel at such a pixel is the input channel multiplied by `0`. -/
theorem replace_luminance_zero_guard
    (image : List (FVal × FVal × FVal)) (luminance org_luminance : List FVal)
    (h1 : luminance.length = org_luminance.length)
    (h2 : org_luminance.length = image.length) :
    (∃ out, (replace_luminance image luminance org_luminance).1 = Except.ok out
        ∧ ∀ (i : ℕ) (px : FVal × FVal × FVal), image[i]? = some px →
            org_luminance[i]? = some (FVal.fin 0) →
            out[i]? = some (FVal.mul px.1 (FVal.fin 0),
              FVal.mul px.2.1 (FVal.fin 0), FVal.mul px.2.2 (FVal.fin 0)))
    ∧ (∃ out, (replace_color image luminance org_luminance).1 = Except.ok out
        ∧ ∀ (i : ℕ) (px : FVal × FVal × FVal), image[i]? = some px →
            org_luminance[i]? = some (FVal.fin 0) →
            out[i]? = some (FVal.mul px.1 (FVal.fin 0),
              FVal.mul px.2.1 (FVal.fin 0), FVal.mul px.2.2 (FVal.fin 0))) := by
  constructor
  · refine ⟨List.zipWith
        (fun px r => (FVal.mul px.1 r, FVal.mul px.2.1 r, FVal.mul px.2.2 r))
        image
        (List.zipWith
          (fun lv ov => if ov = FVal.fin 0 then FVal.fin 0 else FVal.div lv ov)
          (luminance.map clip0max) org_luminance), ?_, ?_⟩
    · simp [replace_luminance, h1, h2]
    intro i px hpx horg
    have hlum : ∃ lv, luminance[i]? = some lv := by
      have hi : i < org_luminance.length := by
        by_contra hge
        rw [List.getElem?_eq_none (by omega)] at horg
        exact Option.noConfusion horg
      exact ⟨luminance[i], List.getElem?_eq_getElem (by omega)⟩
    obtain ⟨lv, hlv⟩ := hlum
    have hmap : (luminance.map clip0max)[i]? = some (clip0max lv) := by
      simp [List.getElem?_map, hlv]
    have hrmap : (List.zipWith
        (fun lv ov => if ov = FVal.fin 0 then FVal.fin 0 else FVal.div lv ov)
        (luminance.map clip0max) org_luminance)[i]? = some (.fin 0) := by
      simp [List.getElem?_zipWith, hmap, horg]
    simp [List.getElem?_zipWith, hpx, hrmap]
  · refine ⟨List.zipWith
        (fun px r => (FVal.mul px.1 r, FVal.mul px.2.1 r, FVal.mul px.2.2 r))
        image
        (List.zipWith
          (fun rv ov => if ov = FVal.fin 0 then FVal.fin 0 else rv)
          (List.zipWith FVal.div (luminance.map clip0max) org_luminance)
          org_luminance), ?_, ?_⟩
    · simp [replace_color, h1, h2]
    intro i px hpx horg
    have hlum : ∃ lv, luminance[i]? = some lv := by
      have hi : i < org_luminance.length := by
        by_contra hge
        rw [List.getElem?_eq_none (by omega)] at horg
        exact Option.noConfusion horg
      exact ⟨luminance[i], List.getElem?_eq_getElem (by omega)⟩
    obtain ⟨lv, hlv⟩ := hlum
    have hmap : (luminance.map clip0max)[i]? = some (clip0max lv) := by
      simp [List.getElem?_map, hlv]
    have hdiv : (List.zipWith FVal.div (luminance.map clip0max)
        org_luminance)[i]? = some (FVal.div (clip0max lv) (.fin 0)) := by
      simp [List.getElem?_zipWith, hmap, horg]
    have hrmap : (List.zipWith
        (fun rv ov => if ov = FVal.fin 0 then FVal.fin 0 else rv)
        (List.zipWith FVal.div (luminance.map clip0max) org_luminance)
        org_luminance)[i]? = some (.fin 0) := by
      simp [List.getElem?_zipWith, hdiv, horg]
    simp [List.getElem?_zipWith, hpx, hrmap]

/-- Witness for C8 at a one-pixel image with zero original luminance. -/
theorem replace_luminance_zero_guard_witness :
    (∃ out, (replace_luminance [(FVal.fin 2, FVal.fin 3, FVal.fin 4)]
          [FVal.fin 5] [FVal.fin 0]).1 = Except.ok out
        ∧ ∀ (i : ℕ) (px : FVal × FVal × FVal),
            [(FVal.fin 2, FVal.fin 3, FVal.fin 4)][i]? = some px →
            [FVal.fin 0][i]? = some (FVal.fin 0) →
            out[i]? = some (FVal.mul px.1 (FVal.fin 0),
              FVal.mul px.2.1 (FVal.fin 0), FVal.mul px.2.2 (FVal.fin 0)))
    ∧ (∃ out, (replace_color [(FVal.fin 2, FVal.fin 3, FVal.fin 4)]
          [FVal.fin 5] [FVal.fin 0]).1 = Except.ok out
        ∧ ∀ (i : ℕ) (px : FVal × FVal × FVal),
            [(FVal.fin 2, FVal.fin 3, FVal.fin 4)][i]? = some px →
            [FVal.fin 0][i]? = some (FVal.fin 0) →
            out[i]? = some (FVal.mul px.1 (FVal.fin 0),
              FVal.mul px.2.1 (FVal.fin 0), FVal.mul px.2.2 (FVal.fin 0))) :=
  replace_luminance_zero_guard [(FVal.fin 2, FVal.fin 3, FVal.fin 4)]
    [FVal.fin 5] [FVal.fin 0] rfl rfl

/-- `"Inf".lower() == "inf"`. -/
theorem pyLower_Inf : pyLower "Inf" = "inf".data := by decide

/-- C10 (counterexample).  The image `[-Inf, 5.0]` has maximum entry `5`
(positive and finite), yet `NormalizeRange("color")` applied twice differs
from applied once: the first application turns `-Inf * (1/5) = -Inf` into
float32-max via the default `inf_sub`, which becomes the new maximum, so
the second application rescales by `1/float32-max`. -/
theorem NormalizeRange_color_not_idempotent_on_ninf :
    amax [FVal.ninf, .fin 5] = .fin 5
      ∧ NormalizeRange_call "color" [FVal.ninf, .fin 5]
          = .ok [.fin F32MAX, .fin 1]
      ∧ NormalizeRange_call "color" [FVal.fin F32MAX, .fin 1]
          = .ok [.fin 1, .fin (1 / F32MAX)]
      ∧ ([FVal.fin 1, .fin (1 / F32MAX)] : List FVal)
          ≠ [.fin F32MAX, .fin 1] := by
  refine ⟨by norm_num [amax, fmax2, FVal.isnan, FVal.leB], ?_, ?_,
    by norm_num [F32MAX]⟩
  · show (multiply_scalar [FVal.ninf, .fin 5]
        (FVal.div (.fin 1) (amax [FVal.ninf, .fin 5])) (some (.fin 0))
        (.strv "Inf") (some (.fin 0))).1 = .ok [.fin F32MAX, .fin 1]
    norm_num [multiply_scalar, amax, fmax2, maskedSet, pyLower_Inf, Except.map,
      FVal.mul, FVal.div, FVal.isnan, FVal.isinf, FVal.leB, F32MAX]
  · show (multiply_scalar [FVal.fin F32MAX, .fin 1]
        (FVal.div (.fin 1) (amax [FVal.fin F32MAX, .fin 1])) (some (.fin 0))
        (.strv "Inf") (some (.fin 0))).1 = .ok [.fin 1, .fin (1 / F32MAX)]
    norm_num [multiply_scalar, amax, fmax2, maskedSet, pyLower_Inf, Except.map,
      FVal.mul, FVal.div, FVal.isnan, FVal.isinf, FVal.leB, F32MAX]

/-! ### C10: idempotence of `NormalizeRange("color")` on finite images -/

theorem fmax2_fin (a q : ℚ) : fmax2 (.fin a) (.fin q) = .fin (max a q) := by
  simp only [fmax2, FVal.isnan, Bool.or_false, FVal.leB, max_def]
  by_cases h : a ≤ q <;> simp [h]

theorem foldl_fmax2_fin (qs : List ℚ) :
    ∀ (a : ℚ), (qs.map FVal.fin).foldl fmax2 (.fin a) = .fin (qs.foldl max a) := by
  induction qs with
  | nil => intro a; rfl
  | cons q tl ih =>
      intro a
      simp only [List.map_cons, List.foldl_cons, fmax2_fin, ih]

theorem amax_map_fin (q0 : ℚ) (qs : List ℚ) :
    amax ((q0 :: qs).map FVal.fin) = .fin (qs.foldl max q0) := by
  simp only [List.map_cons, amax, foldl_fmax2_fin]

theorem le_foldl_max_init (qs : List ℚ) : ∀ (a : ℚ), a ≤ qs.foldl max a := by
  induction qs with
  | nil => intro a; simp
  | cons q tl ih =>
      intro a
      exact le_trans (le_max_left a q) (ih (max a q))

theorem le_foldl_max_of_mem (qs : List ℚ) :
    ∀ (a x : ℚ), x ∈ qs → x ≤ qs.foldl max a := by
  induction qs with
  | nil => intro a x hx; simp at hx
  | cons q tl ih =>
      intro a x hx
      rcases List.mem_cons.1 hx with rfl | hmem
      · exact le_trans (le_max_right a x) (le_foldl_max_init tl (max a x))
      · exact ih (max a q) x hmem

theorem foldl_max_mem (qs : List ℚ) :
    ∀ (a : ℚ), qs.foldl max a = a ∨ qs.foldl max a ∈ qs := by
  induction qs with
  | nil => intro a; left; rfl
  | cons q tl ih =>
      intro a
      rcases ih (max a q) with heq | hmem
      · rcases max_choice a q with hc | hc
        · left; rw [List.foldl_cons, heq, hc]
        · right; rw [List.foldl_cons, heq, hc]; exact List.mem_cons_self _ _
      · right
        rw [List.foldl_cons]
        exact List.mem_cons_of_mem _ hmem

theorem maskedSet_fin_id (mask : FVal → Bool) (v : FVal) (l : List ℚ)
    (h : ∀ q : ℚ, mask (.fin q) = false) :
    maskedSet mask v (l.map .fin) = l.map .fin := by
  unfold maskedSet
  rw [List.map_map]
  refine List.map_congr_left ?_
  intro q _
  simp [h q]

theorem maskedSet_leB0_fin (l : List ℚ) (v : ℚ) :
    maskedSet (fun y => y.leB (.fin 0)) (.fin v) (l.map .fin)
      = (l.map (fun x => if x ≤ 0 then v else x)).map .fin := by
  unfold maskedSet
  rw [List.map_map, List.map_map]
  refine List.map_congr_left ?_
  intro q _
  simp only [Function.comp, FVal.leB, decide_eq_true_eq]
  by_cases h : q ≤ 0 <;> simp [h]

/-- One application of `NormalizeRange("color")` to an image of finite
values with nonzero maximum `M`: every entry is multiplied by `1/M` and
the nonpositive results are replaced by `0`. -/
theorem NormalizeRange_color_eval (qs : List ℚ) (M : ℚ) (hne : qs ≠ [])
    (hmax : amax (qs.map FVal.fin) = .fin M) (hM : M ≠ 0) :
    NormalizeRange_call "color" (qs.map FVal.fin)
      = .ok ((qs.map (fun q =>
          if q * (1 / M) ≤ 0 then (0 : ℚ) else q * (1 / M))).map FVal.fin) := by
  unfold NormalizeRange_call
  rw [if_neg (by decide), if_neg (by simp [List.isEmpty_iff, hne]), hmax]
  have hfac : FVal.div (.fin 1) (.fin M) = .fin (1 / M) := by
    simp [FVal.div, hM]
  rw [hfac]
  unfold multiply_scalar
  simp only
  have hnew1 : (qs.map FVal.fin).map (fun x => FVal.mul x (.fin (1 / M)))
      = (qs.map (fun q => q * (1 / M))).map FVal.fin := by
    rw [List.map_map, List.map_map]
    exact List.map_congr_left (fun q _ => rfl)
  rw [hnew1, maskedSet_fin_id FVal.isnan _ _ (fun q => rfl),
    if_pos pyLower_Inf, maskedSet_fin_id FVal.isinf _ _ (fun q => rfl)]
  simp only [Except.map]
  rw [maskedSet_leB0_fin]
  simp only [List.map_map]
  rfl

/-- C10 (amended).  For every image all of whose entries are finite with a
positive maximum, `NormalizeRange("color")` is idempotent: applying the
operator twice yields the same array as applying it once (after the first
application the maximum is exactly 1, so the second multiplies by 1 and its
degenerate substitutions leave the values fixed).  The amendment restricts
the claim to finite-valued images: a `-Inf` entry breaks idempotence (see
the counterexample), because the default `inf_sub` of `multiply_scalar`
rewrites it to float32-max. -/
theorem NormalizeRange_color_idempotent (qs : List ℚ) (M : ℚ)
    (hmax : amax (qs.map FVal.fin) = .fin M) (hM : 0 < M) :
    ∃ out, NormalizeRange_call "color" (qs.map FVal.fin) = .ok out
      ∧ NormalizeRange_call "color" out = .ok out := by
  have hne : qs ≠ [] := by
    rintro rfl
    simp [amax] at hmax
  obtain ⟨q0, qtl, rfl⟩ := List.exists_cons_of_ne_nil hne
  have hM2 : qtl.foldl max q0 = M := by
    have h := amax_map_fin q0 qtl
    rw [hmax] at h
    exact (FVal.fin.inj h).symm
  set step : ℚ → ℚ := fun q => if q * (1 / M) ≤ 0 then (0 : ℚ) else q * (1 / M)
    with hstep
  set os : List ℚ := (q0 :: qtl).map step with hos
  refine ⟨os.map FVal.fin,
    NormalizeRange_color_eval _ M hne hmax (ne_of_gt hM), ?_⟩
  have hall_le : ∀ x ∈ q0 :: qtl, x ≤ M := by
    intro x hx
    rw [← hM2]
    rcases List.mem_cons.1 hx with rfl | hmem
    · exact le_foldl_max_init qtl x
    · exact le_foldl_max_of_mem qtl q0 x hmem
  have hstep_le : ∀ x ∈ q0 :: qtl, step x ≤ 1 := by
    intro x hx
    show (if x * (1 / M) ≤ 0 then (0 : ℚ) else x * (1 / M)) ≤ 1
    by_cases h : x * (1 / M) ≤ 0
    · rw [if_pos h]; norm_num
    · rw [if_neg h]
      calc x * (1 / M) ≤ M * (1 / M) :=
            mul_le_mul_of_nonneg_right (hall_le x hx)
              (le_of_lt (one_div_pos.mpr hM))
        _ = 1 := mul_one_div_cancel (ne_of_gt hM)
  have hstepM : step M = 1 := by
    show (if M * (1 / M) ≤ 0 then (0 : ℚ) else M * (1 / M)) = 1
    rw [mul_one_div_cancel (ne_of_gt hM)]
    norm_num
  have hM_mem : M = q0 ∨ M ∈ qtl := by
    have := foldl_max_mem qtl q0
    rw [hM2] at this
    exact this
  have h1_mem : (1 : ℚ) ∈ os := by
    rw [hos, ← hstepM]
    rcases hM_mem with hc | hc
    · exact List.mem_map_of_mem step (by rw [hc]; exact List.mem_cons_self _ _)
    · exact List.mem_map_of_mem step (List.mem_cons_of_mem _ hc)
  have hos_le : ∀ o ∈ os, o ≤ 1 := by
    intro o ho
    obtain ⟨x, hx, rfl⟩ := List.mem_map.1 ho
    exact hstep_le x hx
  have hmax_out : amax (os.map FVal.fin) = .fin 1 := by
    rw [hos, List.map_cons, amax_map_fin]
    congr 1
    refine le_antisymm ?_ ?_
    · rcases foldl_max_mem (qtl.map step) (step q0) with heq | hmem
      · rw [heq]
        exact hstep_le q0 (List.mem_cons_self _ _)
      · obtain ⟨x, hx, hx2⟩ := List.mem_map.1 hmem
        rw [← hx2]
        exact hstep_le x (List.mem_cons_of_mem _ hx)
    · rw [hos, List.map_cons] at h1_mem
      rcases List.mem_cons.1 h1_mem with heq | hmem
      · rw [heq]
        exact le_foldl_max_init _ _
      · exact le_foldl_max_of_mem _ _ _ hmem
  have hos_ne : os ≠ [] := by
    rw [hos]
    simp
  have h2 := NormalizeRange_color_eval os 1 hos_ne hmax_out one_ne_zero
  rw [h2]
  congr 1
  rw [List.map_map]
  refine List.map_congr_left ?_
  intro o ho
  have hval : o * (1 / 1) = o := by norm_num
  have hcases : o = 0 ∨ 0 < o := by
    obtain ⟨x, _, rfl⟩ := List.mem_map.1 ho
    by_cases h : x * (1 / M) ≤ 0
    · left
      show (if x * (1 / M) ≤ 0 then (0 : ℚ) else x * (1 / M)) = 0
      rw [if_pos h]
    · right
      show (0 : ℚ) < if x * (1 / M) ≤ 0 then (0 : ℚ) else x * (1 / M)
      rw [if_neg h]
      exact lt_of_not_le h
  show FVal.fin (if o * (1 / 1) ≤ 0 then (0 : ℚ) else o * (1 / 1)) = FVal.fin o
  rw [hval]
  rcases hcases with rfl | hpos
  · norm_num
  · rw [if_neg (not_le.mpr hpos)]

/-- Witness for C10 (amended) at the finite image `[1.0, 2.0]`. -/
theorem NormalizeRange_color_idempotent_witness :
    ∃ out, NormalizeRange_call "color" ([(1 : ℚ), 2].map FVal.fin) = .ok out
      ∧ NormalizeRange_call "color" out = .ok out :=
  NormalizeRange_color_idempotent [1, 2] 2
    (by norm_num [amax, fmax2, FVal.isnan, FVal.leB]) (by norm_num)

/-! ### Radiance body decoder
(`RadianceHDRBody.read_body`, `src/hdrpy/io/radiance_hdr_format.py`
lines 97-152; the identical loop also appears in
`src/hdrpy/format/radiance_hdr.py::RadianceHDRReader.imread` lines 57-117)

The byte stream is the file content after the resolution string.  The
decoded `(h, w, 3)` image is modelled as the function's result (in
`read_body` it is left in the local `img`; `imread` returns it).
The flat buffer `tmpdata` (of `h * w * 4` zero-initialised cells) is a
function `ℕ → ℕ`; numpy element assignments check the index bound (an
out-of-range index raises `IndexError`, checked per run in `readPacket`).
In-file reads are modelled by consumed-byte counts: `ord(f.read(1))` of an
exhausted stream raises `TypeError`, which only the marker reads catch. -/

/-- Channel `v` of an RGBE quad. -/
def quadChan : ℕ → ℕ × ℕ × ℕ × ℕ → ℕ
  | 0, q => q.1
  | 1, q => q.2.1
  | 2, q => q.2.2.1
  | _, q => q.2.2.2

/-- The RGBE → linear RGB conversion of `read_body`:
`expo = np.power(2.0, e - 128.0) / 256.0; rgb = (r, g, b) * expo`.
All these values are exactly representable in float64, so the rational
model is bit-faithful. -/
def rgbeToRGB (r g b e : ℕ) : ℚ × ℚ × ℚ :=
  let expo := (2 : ℚ) ^ ((e : ℤ) - 128) / 256
  ((r : ℚ) * expo, (g : ℚ) * expo, (b : ℚ) * expo)

/-- `tmpdata.reshape((h, w, 4))` followed by the RGBE conversion. -/
def rgbeImage (h w : ℕ) (buf : ℕ → ℕ) : List (List (ℚ × ℚ × ℚ)) :=
  (List.range h).map fun y =>
    (List.range w).map fun x =>
      rgbeToRGB (buf ((y * w + x) * 4)) (buf ((y * w + x) * 4 + 1))
        (buf ((y * w + x) * 4 + 2)) (buf ((y * w + x) * 4 + 3))

/-- Adds a number of already-consumed stream bytes to the count returned
by the rest of the decoding loop. -/
def addCount (k : ℕ) : Except Unit ((ℕ → ℕ) × ℕ) → Except Unit ((ℕ → ℕ) × ℕ)
  | .error e => .error e
  | .ok (b, n) => .ok (b, k + n)

/-- The run-filling `for` loop: writes the bytes of `vals` at channel
`nowv` of consecutive pixels starting at `nowx` of scanline `nowy`,
returning the buffer and the new `nowx`.  (The numpy bound check of each
`tmpdata[...] = ...` assignment is performed up front in `readPacket`: the
run's target indices increase, so some assignment raises `IndexError` iff
the last one is out of range, and since the exception aborts `read_body`
the partially-written buffer is never observed either way.) -/
def writeRun (width nowy nowv : ℕ) : (ℕ → ℕ) → ℕ → List ℕ → (ℕ → ℕ) × ℕ
  | b, nowx, [] => (b, nowx)
  | b, nowx, v :: vs =>
      writeRun width nowy nowv
        (fun j => if j = (nowy * width + nowx) * 4 + nowv then v else b j)
        (nowx + 1) vs

/-- One packet of the inner decoding loop: reads the `info` byte (`ord` of
an exhausted stream raises `TypeError`, uncaught here), then either a
literal run of `info` bytes (`info <= 128`; a short `f.read(info)` makes
`data[i]` raise `IndexError`) or a repeat run of `info - 128` copies of
the next byte (whose read also raises at end of stream).  Returns the
buffer, the new `nowx` and the number of stream bytes consumed; the bound
precheck is numpy's `IndexError` on the run's writes (see `writeRun`). -/
def readPacket (sz width nowy nowv : ℕ) (b : ℕ → ℕ) (s : List ℕ) (nowx : ℕ) :
    Except Unit ((ℕ → ℕ) × ℕ × ℕ) :=
  match s with
  | [] => .error ()
  | info :: rest =>
      if info ≤ 128 then
        if rest.length < info then .error ()
        else if 0 < info ∧ sz ≤ (nowy * width + nowx + info - 1) * 4 + nowv then .error ()
        else .ok ((writeRun width nowy nowv b nowx (rest.take info)).1,
                  (writeRun width nowy nowv b nowx (rest.take info)).2,
                  1 + info)
      else
        if rest.length < 1 then .error ()
        else if sz ≤ (nowy * width + nowx + (info - 128) - 1) * 4 + nowv then .error ()
        else .ok ((writeRun width nowy nowv b nowx
                    (List.replicate (info - 128) (rest.headD 0))).1,
                  (writeRun width nowy nowv b nowx
                    (List.replicate (info - 128) (rest.headD 0))).2,
                  2)

/-- Every successful packet consumes at least one and at most all of the
stream's bytes. -/
theorem readPacket_consumes (sz width nowy nowv : ℕ) (b : ℕ → ℕ)
    (s : List ℕ) (nowx : ℕ) (p : (ℕ → ℕ) × ℕ × ℕ)
    (h : readPacket sz width nowy nowv b s nowx = .ok p) :
    1 ≤ p.2.2 ∧ p.2.2 ≤ s.length := by
  cases s with
  | nil => exact Except.noConfusion h
  | cons info rest =>
      simp only [readPacket] at h
      split_ifs at h with h1 h2 h3 h4 h5
      all_goals first
        | exact Except.noConfusion h
        | (obtain rfl := (Except.ok.inj h).symm
           simp only [List.length_cons]
           omega)

/-- The inner `while True` loop of the RLE decoder (filling the four
channel planes of scanline `nowy`), returning the buffer and the number of
bytes consumed.  When `nowx >= width` the channel counter advances and
`nowx` resets within the same iteration: unless the incremented `nowv`
hits 4 (`break`), control falls through to the packet read without
re-testing `nowx`, exactly as in the Python loop. -/
def rleInner (sz width nowy : ℕ) (b : ℕ → ℕ) (s : List ℕ) (nowx nowv : ℕ) :
    Except Unit ((ℕ → ℕ) × ℕ) :=
  if width ≤ nowx then
    if nowv + 1 = 4 then .ok (b, 0)
    else
      match h : readPacket sz width nowy (nowv + 1) b s 0 with
      | .error _ => .error ()
      | .ok (b2, nowx2, n) =>
          addCount n (rleInner sz width nowy b2 (s.drop n) nowx2 (nowv + 1))
  else
    match h : readPacket sz width nowy nowv b s nowx with
    | .error _ => .error ()
    | .ok (b2, nowx2, n) =>
        addCount n (rleInner sz width nowy b2 (s.drop n) nowx2 nowv)
  termination_by s.length
  decreasing_by
  · have hc : 1 ≤ n ∧ n ≤ s.length :=
      readPacket_consumes sz width nowy (nowv + 1) b s 0 (b2, nowx2, n) h
    simp only [List.length_drop]
    omega
  · have hc : 1 ≤ n ∧ n ≤ s.length :=
      readPacket_consumes sz width nowy nowv b s nowx (b2, nowx2, n) h
    simp only [List.length_drop]
    omega

/-- The outer `while True` loop of the RLE decoder: reads the `0x02 0x02`
marker pair (EOF here is caught and breaks the loop; a non-marker pair
also breaks), then the big-endian scanline width, then the four channel
planes, and moves to the next scanline. -/
def rleLoop (sz : ℕ) (b : ℕ → ℕ) (s : List ℕ) (nowy : ℕ) :
    Except Unit (ℕ → ℕ) :=
  match s with
  | b1 :: b2 :: A :: B :: rest2 =>
      if b1 = 2 ∧ b2 = 2 then
        match rleInner sz ((A <<< 8) ||| B) nowy b rest2 0 0 with
        | .error e => .error e
        | .ok (b2buf, n) => rleLoop sz b2buf (rest2.drop n) (nowy + 1)
      else .ok b
  | b1 :: b2 :: _ =>
      if b1 = 2 ∧ b2 = 2 then .error () else .ok b
  | _ => .ok b
  termination_by s.length
  decreasing_by
    simp only [List.length_cons, List.length_drop]
    omega

/-- `RadianceHDRBody.read_body`, given the declared height and width from
the resolution string and the remaining byte stream.  The two-byte peek of
`is_run_length_encoded` raises on a stream shorter than two bytes;
otherwise a leading `0x02 0x02` selects the RLE path (zero-initialised
`w * h * 4` buffer, scanline loop, reshape, convert) and anything else the
flat path (`struct.unpack` of exactly `w * h * 4` bytes, which raises on a
short stream). -/
def read_body (h w : ℕ) (s : List ℕ) : Except Unit (List (List (ℚ × ℚ × ℚ))) :=
  match s with
  | s1 :: s2 :: _ =>
      if s1 = 2 ∧ s2 = 2 then
        match rleLoop (w * h * 4) (fun _ => 0) s 0 with
        | .error e => .error e
        | .ok buf => .ok (rgbeImage h w buf)
      else
        let totsize := w * h * 4
        if totsize ≤ s.length then
          .ok (rgbeImage h w (fun i => (s.take totsize).getD i 0))
        else .error ()
  | _ => .error ()

/-- One new-style scanline as the repository's own `save` writes it
(marker pair, big-endian width, then each channel plane as literal runs;
here a single run per channel, which the decoder accepts for
`w ≤ 128`). -/
def encodeScanline (w : ℕ) (row : List (ℕ × ℕ × ℕ × ℕ)) : List ℕ :=
  [2, 2, w / 256, w % 256]
    ++ (w :: row.map (fun q => q.1))
    ++ (w :: row.map (fun q => q.2.1))
    ++ (w :: row.map (fun q => q.2.2.1))
    ++ (w :: row.map (fun q => q.2.2.2))

/-- C5.  The decoder converts every RGBE quad `(R, G, B, E)` to linear RGB
by multiplying each raw channel with `2^(E-128) / 256`; in particular the
quad `(255, 255, 255, 128)` decodes to exactly `255/256 = 0.99609375` per
channel (not `1.0`), and `(0, 0, 0, 0)` decodes to `(0, 0, 0)` — both as
plain conversions and through `read_body` on one-pixel bodies (which take
the flat path, their first two bytes not being the RLE marker). -/
theorem radiance_rgbe_conversion :
    (∀ r g b e : ℕ, rgbeToRGB r g b e
        = ((r : ℚ) * ((2 : ℚ) ^ ((e : ℤ) - 128) / 256),
           (g : ℚ) * ((2 : ℚ) ^ ((e : ℤ) - 128) / 256),
           (b : ℚ) * ((2 : ℚ) ^ ((e : ℤ) - 128) / 256)))
    ∧ rgbeToRGB 255 255 255 128 = (255 / 256, 255 / 256, 255 / 256)
    ∧ (255 / 256 : ℚ) = 0.99609375
    ∧ (255 / 256 : ℚ) ≠ 1
    ∧ rgbeToRGB 0 0 0 0 = (0, 0, 0)
    ∧ read_body 1 1 [255, 255, 255, 128]
        = .ok [[(255 / 256, 255 / 256, 255 / 256)]]
    ∧ read_body 1 1 [0, 0, 0, 0] = .ok [[(0, 0, 0)]] := by
  refine ⟨fun r g b e => rfl, ?_, by norm_num, by norm_num, ?_, ?_, ?_⟩
  · norm_num [rgbeToRGB]
  · norm_num [rgbeToRGB]
  · norm_num [read_body, rgbeImage, rgbeToRGB, List.range_succ]
  · norm_num [read_body, rgbeImage, rgbeToRGB, List.range_succ]

/-! ### Decoding the encoder's scanlines

The repository's own `save` (`src/hdrpy/format/radiance_hdr.py` lines
147-190) writes each scanline as the marker pair, the big-endian width and
one literal run per channel plane (a single run suffices for `w ≤ 128`);
`encodeScanline` above reproduces that layout.  The lemmas below compute
`read_body` on a stream of such scanlines followed by arbitrary non-marker
bytes, to settle what the decoder does when fewer than `height` scanlines
are present. -/

/-- Effect of one run fill on the buffer, mirrored recursively. -/
def runPatch (w nowy nowv nowx : ℕ) : List ℕ → (ℕ → ℕ) → (ℕ → ℕ)
  | [], b => b
  | v :: vs, b =>
      runPatch w nowy nowv (nowx + 1) vs
        (fun j => if j = (nowy * w + nowx) * 4 + nowv then v else b j)

theorem writeRun_eq (w nowy nowv : ℕ) :
    ∀ (vals : List ℕ) (b : ℕ → ℕ) (nowx : ℕ),
      writeRun w nowy nowv b nowx vals
        = (runPatch w nowy nowv nowx vals b, nowx + vals.length)
  | [], b, nowx => by simp [writeRun, runPatch]
  | v :: vs, b, nowx => by
      rw [writeRun, writeRun_eq w nowy nowv vs _ (nowx + 1), runPatch]
      show (_, nowx + 1 + vs.length) = (_, nowx + (v :: vs).length)
      simp only [List.length_cons]
      rw [show nowx + 1 + vs.length = nowx + (vs.length + 1) from by omega]

/-- A literal run of exactly `w` present bytes that stays in bounds. -/
theorem readPacket_exact (sz w nowy nowv : ℕ) (b : ℕ → ℕ) (vals rest : List ℕ)
    (nowx : ℕ) (hlen : vals.length = w) (hw1 : w ≤ 128) (hv : nowv < 4)
    (hfit : (nowy * w + nowx + w) * 4 ≤ sz) :
    readPacket sz w nowy nowv b (w :: (vals ++ rest)) nowx
      = .ok (runPatch w nowy nowv nowx vals b, nowx + w, 1 + w) := by
  rw [readPacket]
  rw [if_pos hw1,
    if_neg (show ¬ (vals ++ rest).length < w from by
      simp only [List.length_append]; omega),
    if_neg (show ¬ (0 < w ∧ sz ≤ (nowy * w + nowx + w - 1) * 4 + nowv) from by
      rintro ⟨hw0, hsz⟩; omega),
    show (vals ++ rest).take w = vals from by
      rw [← hlen]; exact List.take_left _ _,
    writeRun_eq, hlen]

/-- Reaching `nowx ≥ width` on the last channel exits the loop. -/
theorem rleInner_exit (sz w nowy : ℕ) (b : ℕ → ℕ) (s : List ℕ) (nowx v : ℕ)
    (hge : w ≤ nowx) (hv : v + 1 = 4) :
    rleInner sz w nowy b s nowx v = .ok (b, 0) := by
  rw [rleInner.eq_def, if_pos hge, if_pos hv]

/-- Consuming one whole-channel literal run from the start of a plane. -/
theorem rleInner_step (sz w nowy : ℕ) (b : ℕ → ℕ) (v : ℕ) (vals rest : List ℕ)
    (hw0 : 0 < w) (hw1 : w ≤ 128) (hv : v < 4) (hlen : vals.length = w)
    (hfit : (nowy * w + w) * 4 ≤ sz) :
    rleInner sz w nowy b (w :: (vals ++ rest)) 0 v
      = addCount (1 + w)
          (rleInner sz w nowy (runPatch w nowy v 0 vals b) rest w v) := by
  rw [rleInner.eq_def, if_neg (show ¬ w ≤ 0 from by omega)]
  rw [readPacket_exact sz w nowy v b vals rest 0 hlen hw1 hv
    (by rw [show nowy * w + 0 + w = nowy * w + w from by omega]; exact hfit)]
  simp only []
  rw [show (1 : ℕ) + w = w + 1 from by omega, List.drop_succ_cons,
    show (vals ++ rest).drop w = rest from by rw [← hlen]; exact List.drop_left _ _,
    show (0 : ℕ) + w = w from by omega, show w + 1 = 1 + w from by omega]

/-- Channel advance followed in the same iteration by the next plane's
whole-channel literal run. -/
theorem rleInner_bumpStep (sz w nowy : ℕ) (b : ℕ → ℕ) (v nowx : ℕ)
    (vals rest : List ℕ) (hge : w ≤ nowx) (hv : v + 1 < 4)
    (hw1 : w ≤ 128) (hlen : vals.length = w)
    (hfit : (nowy * w + w) * 4 ≤ sz) :
    rleInner sz w nowy b (w :: (vals ++ rest)) nowx v
      = addCount (1 + w)
          (rleInner sz w nowy (runPatch w nowy (v + 1) 0 vals b) rest w (v + 1)) := by
  rw [rleInner.eq_def, if_pos hge, if_neg (show ¬ v + 1 = 4 from by omega)]
  rw [readPacket_exact sz w nowy (v + 1) b vals rest 0 hlen hw1 hv
    (by rw [show nowy * w + 0 + w = nowy * w + w from by omega]; exact hfit)]
  simp only []
  rw [show (1 : ℕ) + w = w + 1 from by omega, List.drop_succ_cons,
    show (vals ++ rest).drop w = rest from by rw [← hlen]; exact List.drop_left _ _,
    show (0 : ℕ) + w = w from by omega, show w + 1 = 1 + w from by omega]

/-- One whole encoded scanline body: four whole-channel literal runs,
consuming `4 * (1 + w)` bytes and patching the four planes of row
`nowy`. -/
theorem rleInner_scanline (sz w nowy : ℕ) (b : ℕ → ℕ) (c0 c1 c2 c3 more : List ℕ)
    (hw0 : 0 < w) (hw1 : w ≤ 128)
    (h0 : c0.length = w) (h1 : c1.length = w) (h2 : c2.length = w)
    (h3 : c3.length = w) (hfit : (nowy * w + w) * 4 ≤ sz) :
    rleInner sz w nowy b
        (w :: (c0 ++ (w :: (c1 ++ (w :: (c2 ++ (w :: (c3 ++ more)))))))) 0 0
      = .ok (runPatch w nowy 3 0 c3 (runPatch w nowy 2 0 c2 (runPatch w nowy 1 0 c1
          (runPatch w nowy 0 0 c0 b))), 4 + 4 * w) := by
  rw [rleInner_step sz w nowy b 0 c0 _ hw0 hw1 (by omega) h0 hfit,
    rleInner_bumpStep sz w nowy _ 0 w c1 _ (by omega) (by omega) hw1 h1 hfit,
    rleInner_bumpStep sz w nowy _ 1 w c2 _ (by omega) (by omega) hw1 h2 hfit,
    rleInner_bumpStep sz w nowy _ 2 w c3 _ (by omega) (by omega) hw1 h3 hfit,
    rleInner_exit sz w nowy _ more w 3 (by omega) (by omega)]
  simp only [addCount]
  rw [show 1 + w + (1 + w + (1 + w + (1 + w + 0))) = 4 + 4 * w from by omega]

/-- Pointwise description of `runPatch`: cell `j` holds the run byte for
pixel `j / 4` when `j` lies in the patched channel plane and range. -/
theorem runPatch_apply (w nowy nowv : ℕ) (hv : nowv < 4) :
    ∀ (vals : List ℕ) (nowx : ℕ) (b : ℕ → ℕ) (j : ℕ),
      runPatch w nowy nowv nowx vals b j
        = if j % 4 = nowv ∧ nowy * w + nowx ≤ j / 4
              ∧ j / 4 < nowy * w + nowx + vals.length
          then vals.getD (j / 4 - (nowy * w + nowx)) 0
          else b j
  | [], nowx, b, j => by
      rw [runPatch, if_neg]
      rintro ⟨h1, h2, h3⟩
      simp only [List.length_nil] at h3
      omega
  | v :: vs, nowx, b, j => by
      rw [runPatch,
        runPatch_apply w nowy nowv hv vs (nowx + 1) _ j]
      by_cases hj4 : j % 4 = nowv
      · by_cases hhead : j / 4 = nowy * w + nowx
        · rw [if_neg (show ¬ (j % 4 = nowv ∧ nowy * w + (nowx + 1) ≤ j / 4
                ∧ j / 4 < nowy * w + (nowx + 1) + vs.length) from by
              rintro ⟨_, h2, _⟩; omega),
            if_pos (show j = (nowy * w + nowx) * 4 + nowv from by omega),
            if_pos (show j % 4 = nowv ∧ nowy * w + nowx ≤ j / 4
                ∧ j / 4 < nowy * w + nowx + (v :: vs).length from
              ⟨hj4, by omega, by simp only [List.length_cons]; omega⟩),
            show j / 4 - (nowy * w + nowx) = 0 from by omega]
          rfl
        · by_cases hin : nowy * w + (nowx + 1) ≤ j / 4
              ∧ j / 4 < nowy * w + (nowx + 1) + vs.length
          · rw [if_pos (show j % 4 = nowv ∧ nowy * w + (nowx + 1) ≤ j / 4
                  ∧ j / 4 < nowy * w + (nowx + 1) + vs.length from
                ⟨hj4, hin.1, hin.2⟩),
              if_pos (show j % 4 = nowv ∧ nowy * w + nowx ≤ j / 4
                  ∧ j / 4 < nowy * w + nowx + (v :: vs).length from
                ⟨hj4, by omega, by simp only [List.length_cons]; omega⟩),
              show j / 4 - (nowy * w + nowx)
                = (j / 4 - (nowy * w + (nowx + 1))) + 1 from by omega]
            rfl
          · rw [if_neg (show ¬ (j % 4 = nowv ∧ nowy * w + (nowx + 1) ≤ j / 4
                  ∧ j / 4 < nowy * w + (nowx + 1) + vs.length) from by
                rintro ⟨_, h2, h3⟩; exact hin ⟨h2, h3⟩),
              if_neg (show ¬ j = (nowy * w + nowx) * 4 + nowv from by
                intro hj; exact hhead (by omega)),
              if_neg (show ¬ (j % 4 = nowv ∧ nowy * w + nowx ≤ j / 4
                  ∧ j / 4 < nowy * w + nowx + (v :: vs).length) from by
                simp only [List.length_cons]
                rintro ⟨_, h2, h3⟩
                exact hin ⟨by omega, by omega⟩)]
      · rw [if_neg (show ¬ (j % 4 = nowv ∧ nowy * w + (nowx + 1) ≤ j / 4
              ∧ j / 4 < nowy * w + (nowx + 1) + vs.length) from by
            rintro ⟨h1, _, _⟩; exact hj4 h1),
          if_neg (show ¬ j = (nowy * w + nowx) * 4 + nowv from by
            intro hj; exact hj4 (by omega)),
          if_neg (show ¬ (j % 4 = nowv ∧ nowy * w + nowx ≤ j / 4
              ∧ j / 4 < nowy * w + nowx + (v :: vs).length) from by
            rintro ⟨h1, _, _⟩; exact hj4 h1)]

theorem getD_map_chan (c : ℕ) (f : ℕ × ℕ × ℕ × ℕ → ℕ)
    (hf : ∀ q, f q = quadChan c q) (row : List (ℕ × ℕ × ℕ × ℕ)) (i : ℕ)
    (hi : i < row.length) :
    (row.map f).getD i 0 = quadChan c (row.getD i (0, 0, 0, 0)) := by
  rw [List.getD_eq_getElem?_getD, List.getD_eq_getElem?_getD, List.getElem?_map,
    List.getElem?_eq_getElem hi]
  simp [hf]

/-- Net effect of one decoded scanline on the buffer (see
`rleInner_scanline`). -/
def writeRow (w nowy : ℕ) (row : List (ℕ × ℕ × ℕ × ℕ)) (b : ℕ → ℕ) : ℕ → ℕ :=
  runPatch w nowy 3 0 (row.map fun q => q.2.2.2)
    (runPatch w nowy 2 0 (row.map fun q => q.2.2.1)
      (runPatch w nowy 1 0 (row.map fun q => q.2.1)
        (runPatch w nowy 0 0 (row.map fun q => q.1) b)))

theorem writeRow_apply (w nowy : ℕ) (row : List (ℕ × ℕ × ℕ × ℕ))
    (b : ℕ → ℕ) (j : ℕ) :
    writeRow w nowy row b j
      = if nowy * w ≤ j / 4 ∧ j / 4 < nowy * w + row.length
        then quadChan (j % 4) (row.getD (j / 4 - nowy * w) (0, 0, 0, 0))
        else b j := by
  rw [writeRow, runPatch_apply w nowy 3 (by omega), runPatch_apply w nowy 2 (by omega),
    runPatch_apply w nowy 1 (by omega), runPatch_apply w nowy 0 (by omega)]
  simp only [List.length_map, Nat.add_zero]
  by_cases hb : nowy * w ≤ j / 4 ∧ j / 4 < nowy * w + row.length
  · rcases (show j % 4 = 0 ∨ j % 4 = 1 ∨ j % 4 = 2 ∨ j % 4 = 3 from by omega)
      with hc | hc | hc | hc
    · rw [if_neg (by rintro ⟨h1, -, -⟩; omega),
        if_neg (by rintro ⟨h1, -, -⟩; omega),
        if_neg (by rintro ⟨h1, -, -⟩; omega),
        if_pos ⟨hc, hb.1, hb.2⟩, if_pos hb, hc,
        getD_map_chan 0 (fun q => q.1) (fun q => rfl) row _ (by omega)]
    · rw [if_neg (by rintro ⟨h1, -, -⟩; omega),
        if_neg (by rintro ⟨h1, -, -⟩; omega),
        if_pos ⟨hc, hb.1, hb.2⟩, if_pos hb, hc,
        getD_map_chan 1 (fun q => q.2.1) (fun q => rfl) row _ (by omega)]
    · rw [if_neg (by rintro ⟨h1, -, -⟩; omega),
        if_pos ⟨hc, hb.1, hb.2⟩, if_pos hb, hc,
        getD_map_chan 2 (fun q => q.2.2.1) (fun q => rfl) row _ (by omega)]
    · rw [if_pos ⟨hc, hb.1, hb.2⟩, if_pos hb, hc,
        getD_map_chan 3 (fun q => q.2.2.2) (fun q => rfl) row _ (by omega)]
  · rw [if_neg (by rintro ⟨-, h2, h3⟩; exact hb ⟨h2, h3⟩),
      if_neg (by rintro ⟨-, h2, h3⟩; exact hb ⟨h2, h3⟩),
      if_neg (by rintro ⟨-, h2, h3⟩; exact hb ⟨h2, h3⟩),
      if_neg (by rintro ⟨-, h2, h3⟩; exact hb ⟨h2, h3⟩),
      if_neg hb]

/-- Net effect of decoding scanlines `nowy, nowy + 1, ...` for a list of
rows. -/
def writeRows (w : ℕ) : ℕ → List (List (ℕ × ℕ × ℕ × ℕ)) → (ℕ → ℕ) → ℕ → ℕ
  | _, [], b => b
  | nowy, r :: rs, b => writeRows w (nowy + 1) rs (writeRow w nowy r b)

theorem writeRows_out (w : ℕ) :
    ∀ (rows : List (List (ℕ × ℕ × ℕ × ℕ))) (nowy : ℕ) (b : ℕ → ℕ) (j : ℕ),
      (∀ r ∈ rows, r.length = w) →
      (j / 4 < nowy * w ∨ (nowy + rows.length) * w ≤ j / 4) →
      writeRows w nowy rows b j = b j
  | [], _, _, _, _, _ => rfl
  | r :: rs, nowy, b, j, hall, hout => by
      have e1 : (nowy + 1) * w = nowy * w + w := by ring
      have e2 : (nowy + 1 + rs.length) * w = nowy * w + w + rs.length * w := by ring
      have e3 : (nowy + (r :: rs).length) * w = nowy * w + w + rs.length * w := by
        simp only [List.length_cons]; ring
      rw [writeRows,
        writeRows_out w rs (nowy + 1) _ j
          (fun t ht => hall t (List.mem_cons_of_mem _ ht))
          (by rcases hout with hlt | hge
              · left; omega
              · right; omega),
        writeRow_apply,
        if_neg (by
          rw [hall r (List.mem_cons_self _ _)]
          rcases hout with hlt | hge
          · rintro ⟨h1, -⟩; omega
          · rintro ⟨-, h2⟩; omega)]

theorem writeRows_get (w : ℕ) :
    ∀ (rows : List (List (ℕ × ℕ × ℕ × ℕ))) (nowy : ℕ) (b : ℕ → ℕ) (y x c : ℕ),
      (∀ r ∈ rows, r.length = w) → y < rows.length → x < w → c < 4 →
      writeRows w nowy rows b (((nowy + y) * w + x) * 4 + c)
        = quadChan c ((rows.getD y []).getD x (0, 0, 0, 0))
  | [], _, _, y, _, _, _, hy, _, _ => absurd hy (by simp)
  | r :: rs, nowy, b, y, x, c, hall, hy, hx, hc => by
      rw [writeRows]
      cases y with
      | zero =>
          have hrlen : r.length = w := hall r (List.mem_cons_self _ _)
          have e1 : (nowy + 1) * w = nowy * w + w := by ring
          have e0 : (nowy + 0) * w = nowy * w := by ring
          rw [writeRows_out w rs (nowy + 1) _ _
              (fun t ht => hall t (List.mem_cons_of_mem _ ht))
              (by left; omega),
            writeRow_apply,
            if_pos (show nowy * w ≤ (((nowy + 0) * w + x) * 4 + c) / 4
                ∧ (((nowy + 0) * w + x) * 4 + c) / 4 < nowy * w + r.length from by
              constructor <;> omega),
            show (((nowy + 0) * w + x) * 4 + c) % 4 = c from by omega,
            show (((nowy + 0) * w + x) * 4 + c) / 4 - nowy * w = x from by omega]
          rfl
      | succ y' =>
          rw [show nowy + (y' + 1) = nowy + 1 + y' from by omega]
          exact writeRows_get w rs (nowy + 1) _ y' x c
            (fun t ht => hall t (List.mem_cons_of_mem _ ht))
            (by simp only [List.length_cons] at hy; omega) hx hc

/-- The scanline width is written split into two bytes and reassembled by
the decoder; below 256 it survives unchanged. -/
theorem widthRoundTrip (w : ℕ) (hw : w < 256) :
    ((w / 256) <<< 8) ||| (w % 256) = w := by
  rw [Nat.div_eq_of_lt hw, Nat.mod_eq_of_lt hw]
  simp

theorem drop_chan (w a : ℕ) (c X : List ℕ) (hc : c.length = w) :
    (a :: (c ++ X)).drop (1 + w) = X := by
  rw [Nat.add_comm, List.drop_succ_cons, ← hc, List.drop_left]

/-- Concatenation of encoded scanlines, the body `save` produces for an
image of such rows. -/
def encodeBody (w : ℕ) : List (List (ℕ × ℕ × ℕ × ℕ)) → List ℕ
  | [] => []
  | r :: rs => encodeScanline w r ++ encodeBody w rs

/-- A remainder that does not start with the `0x02 0x02` marker pair makes
the scanline loop stop quietly (EOF at the marker reads is caught). -/
theorem rleLoop_stop (sz : ℕ) (b : ℕ → ℕ) (nowy : ℕ) :
    ∀ (tail : List ℕ), tail.take 2 ≠ [2, 2] → rleLoop sz b tail nowy = .ok b
  | [], _ => by rw [rleLoop.eq_def]
  | [t1], _ => by rw [rleLoop.eq_def]
  | t1 :: t2 :: ts, htail => by
      have hm : ¬ (t1 = 2 ∧ t2 = 2) := by
        rintro ⟨rfl, rfl⟩
        exact htail rfl
      match ts with
      | [] => rw [rleLoop.eq_def]; simp only []; rw [if_neg hm]
      | [a] => rw [rleLoop.eq_def]; simp only []; rw [if_neg hm]
      | a :: c :: ts2 => rw [rleLoop.eq_def]; simp only []; rw [if_neg hm]

/-- The scanline loop on encoded rows followed by a non-marker tail:
every row is decoded and the tail stops the loop without an error. -/
theorem rleLoop_encoded (sz w : ℕ) (hw0 : 0 < w) (hw1 : w ≤ 128) :
    ∀ (rows : List (List (ℕ × ℕ × ℕ × ℕ))) (tail : List ℕ) (nowy : ℕ) (b : ℕ → ℕ),
      (∀ r ∈ rows, r.length = w) → (nowy + rows.length) * w * 4 ≤ sz →
      tail.take 2 ≠ [2, 2] →
      rleLoop sz b (encodeBody w rows ++ tail) nowy = .ok (writeRows w nowy rows b)
  | [], tail, nowy, b, _, _, htail => by
      rw [encodeBody, List.nil_append, rleLoop_stop sz b nowy tail htail]
      rfl
  | r :: rs, tail, nowy, b, hall, hfit, htail => by
      have hrlen : r.length = w := hall r (List.mem_cons_self _ _)
      have hlen1 : (r.map fun q : ℕ × ℕ × ℕ × ℕ => q.1).length = w := by
        rw [List.length_map, hrlen]
      have hlen2 : (r.map fun q : ℕ × ℕ × ℕ × ℕ => q.2.1).length = w := by
        rw [List.length_map, hrlen]
      have hlen3 : (r.map fun q : ℕ × ℕ × ℕ × ℕ => q.2.2.1).length = w := by
        rw [List.length_map, hrlen]
      have hlen4 : (r.map fun q : ℕ × ℕ × ℕ × ℕ => q.2.2.2).length = w := by
        rw [List.length_map, hrlen]
      have hfit' : (nowy * w + w) * 4 ≤ sz := by
        have e : (nowy + (r :: rs).length) * w * 4
            = (nowy * w + w) * 4 + rs.length * w * 4 := by
          simp only [List.length_cons]; ring
        omega
      rw [encodeBody, List.append_assoc, encodeScanline]
      simp only [List.cons_append, List.append_assoc, List.nil_append]
      rw [rleLoop.eq_def]
      simp only []
      rw [if_pos (⟨trivial, trivial⟩ : True ∧ True), widthRoundTrip w (by omega),
        rleInner_scanline sz w nowy b _ _ _ _ _ hw0 hw1 hlen1 hlen2 hlen3 hlen4 hfit']
      simp only []
      rw [show (4 : ℕ) + 4 * w = (1 + w) + ((1 + w) + ((1 + w) + (1 + w))) from by omega,
        ← List.drop_drop, drop_chan w w _ _ hlen1,
        ← List.drop_drop, drop_chan w w _ _ hlen2,
        ← List.drop_drop, drop_chan w w _ _ hlen3,
        drop_chan w w _ _ hlen4]
      rw [rleLoop_encoded sz w hw0 hw1 rs tail (nowy + 1) _
        (fun t ht => hall t (List.mem_cons_of_mem _ ht))
        (by have e : (nowy + 1 + rs.length) * w * 4 = (nowy + (r :: rs).length) * w * 4 := by
              simp only [List.length_cons]; ring
            omega)
        htail]
      rfl

theorem map_range_getD {α β : Type} (f : α → β) (d : α) :
    ∀ (l : List α),
      (List.range l.length).map (fun x => f (l.getD x d)) = l.map f
  | [] => rfl
  | a :: t => by
      rw [List.length_cons, List.range_succ_eq_map]
      simp only [List.map_cons, List.map_map, Function.comp]
      refine congrArg₂ _ rfl ?_
      calc ((List.range t.length).map fun x => f ((a :: t).getD (x + 1) d))
          = (List.range t.length).map fun x => f (t.getD x d) :=
            List.map_congr_left (fun x _ => by rw [List.getD_cons_succ])
        _ = t.map f := map_range_getD f d t

/-- Full behaviour of `read_body` on `k` encoded scanlines (`0 < k ≤ h`)
followed by a non-marker tail: the `k` rows are decoded and the remaining
`h - k` rows of the reshaped buffer stay zero. -/
theorem read_body_encoded (h w : ℕ) (rows : List (List (ℕ × ℕ × ℕ × ℕ)))
    (tail : List ℕ) (hw0 : 0 < w) (hw1 : w ≤ 128)
    (hall : ∀ r ∈ rows, r.length = w) (hk0 : 0 < rows.length)
    (hkh : rows.length ≤ h) (htail : tail.take 2 ≠ [2, 2]) :
    read_body h w (encodeBody w rows ++ tail)
      = .ok ((List.range h).map fun y =>
          if y < rows.length
          then (rows.getD y []).map fun q => rgbeToRGB q.1 q.2.1 q.2.2.1 q.2.2.2
          else (List.range w).map fun _ => ((0 : ℚ), (0 : ℚ), (0 : ℚ))) := by
  obtain ⟨r, rs, rfl⟩ : ∃ r rs, rows = r :: rs := by
    cases rows with
    | nil => simp at hk0
    | cons r rs => exact ⟨r, rs, rfl⟩
  have hfit : (0 + (r :: rs).length) * w * 4 ≤ w * h * 4 := by
    have hm := Nat.mul_le_mul_right (w * 4) hkh
    calc (0 + (r :: rs).length) * w * 4 = (r :: rs).length * (w * 4) := by ring
      _ ≤ h * (w * 4) := hm
      _ = w * h * 4 := by ring
  have hloop := rleLoop_encoded (w * h * 4) w hw0 hw1 (r :: rs) tail 0
    (fun _ => 0) hall hfit htail
  obtain ⟨T, hT⟩ : ∃ T, encodeBody w (r :: rs) ++ tail = 2 :: 2 :: T :=
    ⟨w / 256 :: w % 256
        :: ((w :: r.map (fun q => q.1)) ++ ((w :: r.map (fun q => q.2.1))
          ++ ((w :: r.map (fun q => q.2.2.1)) ++ ((w :: r.map (fun q => q.2.2.2))
            ++ (encodeBody w rs ++ tail))))),
      by simp [encodeBody, encodeScanline]⟩
  rw [hT] at hloop ⊢
  rw [read_body]
  simp only []
  rw [if_pos (⟨trivial, trivial⟩ : True ∧ True), hloop]
  simp only []
  refine congrArg _ ?_
  rw [rgbeImage]
  apply List.map_congr_left
  intro y hy
  by_cases hylt : y < (r :: rs).length
  · rw [if_pos hylt]
    have hrow : ((r :: rs).getD y []).length = w := by
      rw [List.getD_eq_getElem?_getD, List.getElem?_eq_getElem hylt]
      exact hall _ (List.getElem_mem _)
    rw [← map_range_getD (fun q : ℕ × ℕ × ℕ × ℕ =>
        rgbeToRGB q.1 q.2.1 q.2.2.1 q.2.2.2) (0, 0, 0, 0) ((r :: rs).getD y []),
      hrow]
    apply List.map_congr_left
    intro x hx
    have hxw : x < w := List.mem_range.mp hx
    have e0 := writeRows_get w (r :: rs) 0 (fun _ => 0) y x 0 hall hylt hxw (by omega)
    have e1 := writeRows_get w (r :: rs) 0 (fun _ => 0) y x 1 hall hylt hxw (by omega)
    have e2 := writeRows_get w (r :: rs) 0 (fun _ => 0) y x 2 hall hylt hxw (by omega)
    have e3 := writeRows_get w (r :: rs) 0 (fun _ => 0) y x 3 hall hylt hxw (by omega)
    simp only [Nat.zero_add, Nat.add_zero] at e0 e1 e2 e3
    rw [e0, e1, e2, e3]
    rfl
  · rw [if_neg hylt]
    apply List.map_congr_left
    intro x hx
    have hxw : x < w := List.mem_range.mp hx
    have hyge : (r :: rs).length ≤ y := by omega
    have hmul : (r :: rs).length * w ≤ y * w := Nat.mul_le_mul_right w hyge
    have hz : ∀ c, c < 4 →
        writeRows w 0 (r :: rs) (fun _ => 0) ((y * w + x) * 4 + c) = 0 := by
      intro c hc
      rw [writeRows_out w (r :: rs) 0 (fun _ => 0) ((y * w + x) * 4 + c) hall
        (by right
            have e : (0 + (r :: rs).length) * w = (r :: rs).length * w := by ring
            omega)]
    have z0 := hz 0 (by omega)
    have z1 := hz 1 (by omega)
    have z2 := hz 2 (by omega)
    have z3 := hz 3 (by omega)
    simp only [Nat.add_zero] at z0
    rw [z0, z1, z2, z3]
    simp [rgbeToRGB]

/-- C4, counterexample.  A body declaring (through the caller) height 2
but containing a single well-formed RLE scanline and nothing after it:
`read_body` does not fail — it returns a decoded image whose first row is
the decoded scanline and whose second row is zeros.  The stream is
`encodeBody 1 [[(10, 20, 30, 128)]]`, i.e. marker `2 2`, width bytes
`0 1`, and four one-byte literal runs. -/
theorem read_body_truncated_returns_image :
    read_body 2 1 [2, 2, 0, 1, 1, 10, 1, 20, 1, 30, 1, 128]
      = .ok [[(10 / 256, 20 / 256, 30 / 256)], [(0, 0, 0)]] := by
  have hres := read_body_encoded 2 1 [[(10, 20, 30, 128)]] []
    (by omega) (by omega)
    (by intro r hr; rw [List.mem_singleton] at hr; subst hr; rfl)
    (by simp) (by simp) (by decide)
  rw [show ([2, 2, 0, 1, 1, 10, 1, 20, 1, 30, 1, 128] : List ℕ)
      = encodeBody 1 [[(10, 20, 30, 128)]] ++ [] from rfl, hres]
  norm_num [List.range_succ, rgbeToRGB]

/-- C4, amended.  When fewer encoded scanlines than the declared height
are present (`0 < rows.length < h`, each row of width `0 < w ≤ 128`,
followed by anything that does not begin with the `0x02 0x02` marker — in
particular end of stream), the decoder does NOT fail with a `Corrupt`
error (no such error exists): the scanline loop breaks quietly and
`read_body` returns a partially decoded image, the decoded rows followed
by `h - rows.length` all-zero rows from the zero-initialised buffer. -/
theorem read_body_partial_never_corrupt (h w : ℕ)
    (rows : List (List (ℕ × ℕ × ℕ × ℕ))) (tail : List ℕ)
    (hw0 : 0 < w) (hw1 : w ≤ 128) (hall : ∀ r ∈ rows, r.length = w)
    (hk0 : 0 < rows.length) (hkh : rows.length < h)
    (htail : tail.take 2 ≠ [2, 2]) :
    read_body h w (encodeBody w rows ++ tail)
      = .ok ((List.range h).map fun y =>
          if y < rows.length
          then (rows.getD y []).map fun q => rgbeToRGB q.1 q.2.1 q.2.2.1 q.2.2.2
          else (List.range w).map fun _ => ((0 : ℚ), (0 : ℚ), (0 : ℚ))) :=
  read_body_encoded h w rows tail hw0 hw1 hall hk0 (by omega) htail

/-- C4, witness: two declared scanlines missing out of three, with an
extra stray byte after the encoded one; the decoder returns the
partially-decoded all-zero image. -/
theorem read_body_partial_never_corrupt_witness :
    read_body 3 2 (encodeBody 2 [[(0, 0, 0, 0), (0, 0, 0, 0)]] ++ [7])
      = .ok [[(0, 0, 0), (0, 0, 0)], [(0, 0, 0), (0, 0, 0)],
             [(0, 0, 0), (0, 0, 0)]] := by
  rw [read_body_partial_never_corrupt 3 2 [[(0, 0, 0, 0), (0, 0, 0, 0)]] [7]
    (by omega) (by omega)
    (by intro r hr; rw [List.mem_singleton] at hr; subst hr; rfl)
    (by simp) (by simp) (by decide)]
  norm_num [List.range_succ, rgbeToRGB]

end Hdrpy
